import Mathlib

/-!
Verification of the PolyPasswordHasher password-hashing engine
(`django_pph/hashers.py`) against its natural-language specification.

Python 2 `str` values are byte strings; we model them as `List Nat` with
every element below 256.  The external PBKDF2 digest and the AES block
cipher are abstract parameters of the configuration.  Helpers that live in
`utils.py`, `settings.py` and `shamirsecret.py` (not part of the sources
under verification) are modelled from the specification and marked as such.
-/

namespace PPH

/-- Byte strings (Python 2 `str` / `bytearray`): lists of naturals. -/
abbrev Bytes := List Nat

/-- All elements are actual bytes. -/
def isBytes (xs : Bytes) : Prop := ∀ x ∈ xs, x < 256

instance : DecidablePred isBytes := fun xs =>
  inferInstanceAs (Decidable (∀ x ∈ xs, x < 256))

/-- Python index normalisation: a negative index counts from the end. -/
def pyIdx (len : Nat) (i : Int) : Nat :=
  (if i < 0 then (len : Int) + i else i).toNat

/-- Python slice `xs[:i]` (supports negative `i`). -/
def pyTake (xs : Bytes) (i : Int) : Bytes := xs.take (pyIdx xs.length i)

/-- Python slice `xs[i:]` (supports negative `i`). -/
def pyDrop (xs : Bytes) (i : Int) : Bytes := xs.drop (pyIdx xs.length i)

/-- Python `xs.strip(c)`: remove every leading and trailing occurrence of `c`. -/
def stripChar (c : Nat) (xs : Bytes) : Bytes :=
  ((xs.dropWhile (· = c)).reverse.dropWhile (· = c)).reverse

/-- Split off everything before the first occurrence of `sep`. -/
def splitFirst (sep : Nat) : Bytes → Option (Bytes × Bytes)
  | [] => none
  | c :: rest =>
    if c = sep then some ([], rest)
    else (splitFirst sep rest).map (fun p => (c :: p.1, p.2))

/-- Python `xs.split(sep, k)`: at most `k` splits, remainder kept whole. -/
def splitMax (sep : Nat) : Nat → Bytes → List Bytes
  | 0, xs => [xs]
  | k + 1, xs =>
    match splitFirst sep xs with
    | none => [xs]
    | some (a, rest) => a :: splitMax sep k rest

/-- Decimal rendering, with explicit fuel so that the kernel can evaluate
it (the fuel `n` always suffices since `n / 10 < n`). -/
def natToDecAux : Nat → Nat → Bytes
  | 0, n => [48 + n]
  | fuel + 1, n =>
    if n < 10 then [48 + n]
    else natToDecAux fuel (n / 10) ++ [48 + n % 10]

/-- Decimal rendering of a natural number as ASCII bytes (`"%d"`). -/
def natToDec (n : Nat) : Bytes := natToDecAux n n

/-- ASCII decimal digit test. -/
def isDigit (c : Nat) : Bool := 48 ≤ c ∧ c ≤ 57

/-- Python `int(s)` on a non-negative decimal literal; `none` models
`ValueError`. -/
def parseNat (xs : Bytes) : Option Nat :=
  if xs.isEmpty then none
  else if xs.all isDigit then some (xs.foldl (fun a c => a * 10 + (c - 48)) 0)
  else none

/-- Standard base64 alphabet, as a function from 6-bit values to ASCII. -/
def b64chr (k : Nat) : Nat :=
  if k < 26 then 65 + k
  else if k < 52 then 97 + (k - 26)
  else if k < 62 then 48 + (k - 52)
  else if k = 62 then 43
  else 47

/-- Modelled from the spec: `utils.b64enc` (utils.py is not under src/) is
standard base64 encoding with padding, over byte strings. -/
def b64enc : Bytes → Bytes
  | a :: b :: c :: rest =>
    b64chr (a / 4) :: b64chr ((a % 4) * 16 + b / 16) ::
      b64chr ((b % 16) * 4 + c / 64) :: b64chr (c % 64) :: b64enc rest
  | [a, b] => [b64chr (a / 4), b64chr ((a % 4) * 16 + b / 16), b64chr ((b % 16) * 4), 61]
  | [a] => [b64chr (a / 4), b64chr ((a % 4) * 16), 61, 61]
  | [] => []

/-- Modelled from the spec: `utils.bin64enc` — the binary-payload base64
variant; byte-for-byte the same standard encoding. -/
def bin64enc (xs : Bytes) : Bytes := b64enc xs

/-- Inverse of the base64 alphabet (`table_a2b_base64`), `none` on
characters that are not data characters. -/
def b64val (c : Nat) : Option Nat :=
  if 65 ≤ c ∧ c ≤ 90 then some (c - 65)
  else if 97 ≤ c ∧ c ≤ 122 then some (c - 71)
  else if 48 ≤ c ∧ c ≤ 57 then some (c + 4)
  else if c = 43 then some 62
  else if c = 47 then some 63
  else none

/-- First character of `xs` that is valid for the base64 table (the pad
`'='` counts as valid), mirroring CPython's `binascii_find_valid`. -/
def findValid : Bytes → Option Nat
  | [] => none
  | c :: rest =>
    if c ≤ 127 ∧ (c = 61 ∨ (b64val c).isSome) then some c else findValid rest

/-- CPython 2 `binascii.a2b_base64` main loop: skip non-base64 bytes, stop
at a completed pad sequence, otherwise shift 6-bit values into `leftchar`
and emit a byte whenever 8 bits are available.  State is
`(quad_pos, leftchar, leftbits)`; `none` models the "Incorrect padding"
error (input exhausted with `leftbits ≠ 0`). -/
def a2bAux : Nat → Nat → Nat → Bytes → Option Bytes
  | _, _, leftbits, [] => if leftbits = 0 then some [] else none
  | quad, leftchar, leftbits, c :: rest =>
    if 127 < c ∨ c = 13 ∨ c = 10 ∨ c = 32 then a2bAux quad leftchar leftbits rest
    else if c = 61 then
      if quad < 2 ∨ (quad = 2 ∧ findValid rest ≠ some 61) then
        a2bAux quad leftchar leftbits rest
      else some []
    else
      match b64val c with
      | none => a2bAux quad leftchar leftbits rest
      | some v =>
        let lc := leftchar * 64 + v
        let lb := leftbits + 6
        if 8 ≤ lb then
          (a2bAux ((quad + 1) % 4) (lc % 2 ^ (lb - 8)) (lb - 8) rest).map
            (fun bs => lc / 2 ^ (lb - 8) % 256 :: bs)
        else a2bAux ((quad + 1) % 4) lc lb rest

/-- Python 2 `base64.b64decode`. -/
def pyB64decode (xs : Bytes) : Option Bytes := a2bAux 0 0 0 xs

/-- Modelled from the spec: `utils.constant_time_compare` — constant-time
equality of byte strings; a length mismatch is inequality. -/
def constant_time_compare (a b : Bytes) : Bool := a == b

/-- Modelled from the spec: `utils.do_bytearray_xor` — byte-wise XOR of two
byte strings (the engine only applies it to equal-length inputs). -/
def do_bytearray_xor (a b : Bytes) : Bytes := List.zipWith (fun x y => x ^^^ y) a b

/-! ## GF(2^8) arithmetic and the Shamir module

Modelled from the spec (§4.1–§4.2): `shamirsecret.py` is not under `src/`.
Field addition is XOR; multiplication is carry-less multiplication reduced
by the AES polynomial `0x11b` (the log/exp tables of the spec implement
exactly this product); the inverse `exp[255 − log[x]]` equals `x^254`. -/

/-- GF(2^8) addition. -/
def gfAdd (a b : Nat) : Nat := a ^^^ b

/-- Russian-peasant multiplication with on-the-fly reduction by `0x11b`,
with explicit fuel so that the kernel can evaluate it (the loop halves `b`
each step, so fuel `b` always suffices). -/
def gfMulAux : Nat → Nat → Nat → Nat → Nat
  | 0, _, _, r => r
  | fuel + 1, a, b, r =>
    if b = 0 then r
    else
      gfMulAux fuel (if a * 2 < 256 then a * 2 else a * 2 ^^^ 283) (b / 2)
        (if b % 2 = 1 then r ^^^ a else r)

/-- GF(2^8) multiplication. -/
def gfMul (a b : Nat) : Nat := gfMulAux b a b 0

/-- GF(2^8) exponentiation. -/
def gfPow (x : Nat) : Nat → Nat
  | 0 => 1
  | n + 1 => gfMul x (gfPow x n)

/-- GF(2^8) inverse: `exp[255 − log[x]] = x^254`; 0 has no inverse and is
mapped to 0 (the engine never divides by 0: Lagrange denominators are XORs
of distinct share numbers). -/
def gfInv (x : Nat) : Nat := if x = 0 then 0 else gfPow x 254

/-- GF(2^8) division. -/
def gfDiv (a b : Nat) : Nat := gfMul a (gfInv b)

/-- Evaluate a polynomial (coefficient list, constant term first) by
Horner's rule over GF(2^8). -/
def evalPoly (coeffs : List Nat) (x : Nat) : Nat :=
  coeffs.foldr (fun c acc => gfAdd c (gfMul acc x)) 0

/-- Sum of two coefficient lists over GF(2^8). -/
def polyAdd : List Nat → List Nat → List Nat
  | [], q => q
  | p, [] => p
  | a :: p, b :: q => (a ^^^ b) :: polyAdd p q

/-- Scale a coefficient list by a field constant. -/
def polyScale (c : Nat) (p : List Nat) : List Nat := p.map (gfMul c)

/-- Multiply a polynomial by the linear factor `x ⊕ a`. -/
def polyMulLin (p : List Nat) (a : Nat) : List Nat :=
  polyAdd (polyScale a p) (0 :: p)

/-- Lagrange basis polynomial for node `xi` against the other nodes:
`Π_{j≠i} (x ⊕ xj) / (xi ⊕ xj)`, as a coefficient list. -/
def lagrangeBasis (xi : Nat) (others : List Nat) : List Nat :=
  polyScale (gfInv (others.foldl (fun d xj => gfMul d (gfAdd xi xj)) 1))
    (others.foldl (fun p xj => polyMulLin p xj) [1])

/-- Full Lagrange interpolation: the coefficient list of the polynomial
through the given `(x, y)` points. -/
def fullLagrange (pts : List (Nat × Nat)) : List Nat :=
  let xs := pts.map Prod.fst
  pts.foldl (fun acc p => polyAdd acc (polyScale p.2 (lagrangeBasis p.1 (xs.erase p.1)))) []

/-- Modelled from the spec (§4.2): a `ShamirSecret` instance — a threshold,
one GF(2^8) polynomial per secret byte (constant term = that byte), and the
secret byte string once known. -/
structure ShamirSecret where
  threshold : Nat
  coefficients : List (List Nat)
  secretdata : Option Bytes
deriving DecidableEq

/-- `ShamirSecret(threshold)`: recovery-mode construction, no secret yet. -/
def emptyShamir (t : Nat) : ShamirSecret := ⟨t, [], none⟩

/-- `compute_share(n)`: the pair `(n, y)` with `y[k] = p_k(n)`. -/
def computeShare (S : ShamirSecret) (n : Nat) : Nat × Bytes :=
  (n, S.coefficients.map (fun p => evalPoly p n))

/-- Errors of `recover_secretdata`, per the spec. -/
inductive ShamirError
  | duplicateShares
  | notEnoughShares
  | inconsistentShares
deriving DecidableEq

/-- Modelled from the spec (§4.2): `recover_secretdata(shares)` — reject
duplicate x-coordinates and fewer than `t` shares, fit the byte-wise
polynomials through the first `t` shares, take the secret from their
values at `x = 0`, and require every share beyond the first `t` to lie on
the fitted polynomials.  Returns the fitted instance and the secret. -/
def recoverSecretdata (t : Nat) (shares : List (Nat × Bytes)) :
    Except ShamirError (ShamirSecret × Bytes) :=
  if ¬ (shares.map Prod.fst).Nodup then .error .duplicateShares
  else if shares.length < t then .error .notEnoughShares
  else
    let first := shares.take t
    let L := ((first.headD (0, [])).2).length
    let polys := (List.range L).map
      (fun k => fullLagrange (first.map (fun s => (s.1, s.2.getD k 0))))
    let secret := polys.map (fun p => evalPoly p 0)
    if (shares.drop t).all
        (fun s => (List.range L).all
          (fun k => evalPoly (polys.getD k []) s.1 = s.2.getD k 0))
    then .ok ({ threshold := t, coefficients := polys, secretdata := some secret }, secret)
    else .error .inconsistentShares

/-! ## Engine state, cache and configuration -/

/-- The process-wide mutable dictionary `PolyPasswordHasher.data`. -/
structure PPHData where
  is_unlocked : Bool
  secret : Option Bytes
  nextavailableshare : Nat
  shamirsecretobj : Option ShamirSecret
  thresholdlesskey : Option Bytes
  last_unlocked : Nat
deriving DecidableEq

/-- The class-level `defaults` snapshot (timestamps modelled as naturals;
the import-time `utcnow()` is 0). -/
def defaultsData : PPHData :=
  { is_unlocked := false, secret := none, nextavailableshare := 1,
    shamirsecretobj := none, thresholdlesskey := none, last_unlocked := 0 }

/-- The KV cache keys the hasher uses: the `'hasher'` state blob, numeric
keys for candidate shares, `'sharenumbers'`, and `'partial_hashes'`.
Python dictionaries/sets are modelled as insertion-ordered association
lists without duplicate keys. -/
structure Cache where
  hasher : Option PPHData
  shares : List (Nat × Bytes)
  sharenumbers : Option (List Nat)
  partial_hashes : Option (List (Bytes × (Nat × Bytes)))
deriving DecidableEq

/-- Python dict update: replace in place, or append a fresh key. -/
def setAssoc {α β : Type} [BEq α] (l : List (α × β)) (k : α) (v : β) : List (α × β) :=
  if (List.lookup k l).isSome then
    l.map (fun p => if p.1 == k then (k, v) else p)
  else l ++ [(k, v)]

/-- Python set `add`. -/
def addSet (l : List Nat) (n : Nat) : List Nat := if n ∈ l then l else l ++ [n]

/-- A record of the ambient Django user store (an external collaborator):
its join timestamp and its `password` field. -/
structure UserRec where
  date_joined : Nat
  password : Bytes
deriving DecidableEq

/-- The whole system state an engine invocation can touch: the in-process
`data` dictionary, the KV cache, the ambient user store, and the current
time (for `datetime.utcnow()`). -/
structure SysState where
  data : PPHData
  cache : Cache
  users : List UserRec
  now : Nat
deriving DecidableEq

/-- Engine configuration: the `SETTINGS` values, the class-level iteration
count, and the external cryptographic primitives.  `digest` is
`django.utils.crypto.pbkdf2(password, salt, iterations)` (salt `None`
allowed); `aes_encrypt key data` is `AES.new(key).encrypt(data)`. -/
structure Config where
  threshold : Nat
  partialbytes : Nat
  iterations : Nat
  secret_length : Nat
  secret_verification_bytes : Nat
  digest : Bytes → Option Bytes → Nat → Bytes
  aes_encrypt : Bytes → Bytes → Bytes

instance {ε α : Type} [DecidableEq ε] [DecidableEq α] : DecidableEq (Except ε α) :=
  fun a b =>
    match a, b with
    | .ok x, .ok y =>
      if h : x = y then isTrue (by rw [h])
      else isFalse (fun hc => h (Except.ok.inj hc))
    | .error x, .error y =>
      if h : x = y then isTrue (by rw [h])
      else isFalse (fun hc => h (Except.error.inj hc))
    | .ok _, .error _ => isFalse (fun hc => Except.noConfusion hc)
    | .error _, .ok _ => isFalse (fun hc => Except.noConfusion hc)

/-- Exceptions the engine can raise. -/
inductive PPHError
  | assertionFailed
  | locked
  | shareConflict
  | recombineFailed
  | shamirFailed (e : ShamirError)
  | decodeFailed
  | parseFailed
  | sweeperFailed
deriving DecidableEq

/-- `self.load()`: replace `data` with the cached blob or the defaults. -/
def loadOp (st : SysState) : SysState :=
  { st with data := st.cache.hasher.getD defaultsData }

/-- `self.update()`: persist `data` under the `'hasher'` cache key. -/
def updateOp (st : SysState) : SysState :=
  { st with cache := { st.cache with hasher := some st.data } }

/-! ## The hasher operations (`django_pph/hashers.py`) -/

/-- The algorithm tag `"pph"`. -/
def pphAlg : Bytes := [112, 112, 104]

/-- The wire format `alg$share$iterations$salt$passhash`. -/
def mkEncoded (alg shareField : Bytes) (iters : Nat) (salt ph : Bytes) : Bytes :=
  alg ++ 36 :: shareField ++ 36 :: natToDec iters ++ 36 :: salt ++ 36 :: ph

/-- `_polyhash_entry` body once the Shamir object is in hand:
`bin64enc(pbkdf2(pw, salt, self.iterations) XOR compute_share(n).y)`
followed by the base64 of the trailing `partialbytes` of the plain hash. -/
def polyhashPure (cfg : Config) (S : ShamirSecret) (pw salt : Bytes) (n : Nat) : Bytes :=
  let h := cfg.digest pw (some salt) cfg.iterations
  let ph := do_bytearray_xor h (computeShare S n).2
  bin64enc ph ++ b64enc (pyDrop h ((h.length : Int) - cfg.partialbytes))

/-- `self._polyhash_entry(password, salt, sharenumber)`; the `assert` on a
missing Shamir object is an `AssertionError`. -/
def polyhash_entry (cfg : Config) (st : SysState) (pw salt : Bytes) (n : Nat) :
    Except PPHError Bytes :=
  match st.data.shamirsecretobj with
  | none => .error .assertionFailed
  | some S => .ok (polyhashPure cfg S pw salt n)

/-- `_encrypt_entry` body once the thresholdless key is in hand. -/
def encryptPure (cfg : Config) (key pw salt : Bytes) : Bytes :=
  let h := cfg.digest pw (some salt) cfg.iterations
  bin64enc (cfg.aes_encrypt key h) ++
    b64enc (pyDrop h ((h.length : Int) - cfg.partialbytes))

/-- `self._encrypt_entry(password, salt)`. -/
def encrypt_entry (cfg : Config) (st : SysState) (pw salt : Bytes) :
    Except PPHError Bytes :=
  match st.data.thresholdlesskey with
  | none => .error .assertionFailed
  | some key => .ok (encryptPure cfg key pw salt)

/-- `self._partial_verify(password, salt, passhash, iterations, sharenumber)`:
compare the trailing `partialbytes` characters of `b64enc(pbkdf2(...))`
against the trailing `partialbytes` characters of the stored hash; on a
match, record the hash in the `partial_hashes` cache (insert-only). -/
def partial_verify (cfg : Config) (st : SysState) (pw salt passhash : Bytes)
    (iters n : Nat) : Bool × SysState :=
  let sph := b64enc (cfg.digest pw (some salt) iters)
  let pb := pyDrop sph ((sph.length : Int) - cfg.partialbytes)
  let opb := pyDrop passhash ((passhash.length : Int) - cfg.partialbytes)
  if constant_time_compare pb opb then
    let pvh := st.cache.partial_hashes.getD []
    let pvh' := if (List.lookup passhash pvh).isSome then pvh
      else pvh ++ [(passhash, (n, sph))]
    (true, { st with cache := { st.cache with partial_hashes := some pvh' } })
  else (false, st)

/-- `self._get_share_from_hash(password, salt, passhash, iterations)`:
base64-decode the stored hash with its trailing `partialbytes` characters
sliced off, and XOR with the freshly computed salted hash. -/
def get_share_from_hash (cfg : Config) (pw salt passhash : Bytes) (iters : Nat) :
    Except PPHError Bytes :=
  match pyB64decode (pyTake passhash ((passhash.length : Int) - cfg.partialbytes)) with
  | none => .error .decodeFailed
  | some bp => .ok (do_bytearray_xor bp (cfg.digest pw (some salt) iters))

/-- `self.verify_secret(secret)`: the trailing `SECRET_VERIFICATION_BYTES`
of the buffer must equal the leading characters of the base64 of the
1-iteration digest (with `salt=None`) of the rest. -/
def verify_secret (cfg : Config) (secret : Bytes) : Bool :=
  let diff : Int := (cfg.secret_length : Int) - cfg.secret_verification_bytes
  let fp := pyTake (b64enc (cfg.digest (pyTake secret diff) none 1))
    (cfg.secret_verification_bytes : Int)
  constant_time_compare (pyDrop secret diff) fp

/-- `self._verify_previous_hashes()`: audits `partial_hashes` and logs
mismatches; it mutates nothing and (with the thresholdless key in place,
as guaranteed by its only caller) raises nothing, so it is the identity on
the system state. -/
def verify_previous_hashes (st : SysState) : SysState := st

/-- Does a stored password look like a locked-mode entry to the sweeper?
`password.split('$', 4)` must unpack to five fields (else `ValueError`)
and the share field must start with `'-'`; rewriting such an entry then
dies in the mis-formatted string composition (`KeyError` on the `"{s}"`
format for latent share 0, `NameError` on the bare `update_hash_threshold`
call otherwise). -/
def sweeperRaisesOn (pwd : Bytes) : Bool :=
  match splitMax 36 4 pwd with
  | [_, rawShare, _, _, _] => rawShare.head? = some 45
  | parts => parts.length ≠ 5

/-- `self._update_locked_hashes()`: after the asserts, scan users joined
since `last_unlocked`; the first one carrying a locked-mode entry makes the
sweep raise (see `sweeperRaisesOn`) before any user is rewritten; users
without the `-` marker are skipped untouched. -/
def update_locked_hashes (st : SysState) : Except PPHError Unit × SysState :=
  if st.data.is_unlocked = false ∨ st.data.thresholdlesskey = none ∨
      st.data.secret = none then
    (.error .assertionFailed, st)
  else if st.users.any
      (fun u => st.data.last_unlocked ≤ u.date_joined ∧ sweeperRaisesOn u.password) then
    (.error .sweeperFailed, st)
  else (.ok (), st)

/-- The `for share in sharenumbers` collection loop of `_recombine`; `none`
models the `assert share_value is not None` failure. -/
def collectShares (shares : List (Nat × Bytes)) : List Nat → Option (List (Nat × Bytes))
  | [] => some []
  | n :: rest =>
    match List.lookup n shares with
    | none => none
    | some v => (collectShares shares rest).map (fun l => (n, v) :: l)

/-- `self._recombine()`: rebuild the secret from the cached candidate
shares, check its fingerprint, unlock, audit, sweep, stamp and persist.
Mutations made before an exception persist, exactly as in Python. -/
def recombine (cfg : Config) (st : SysState) : Except PPHError Unit × SysState :=
  match st.cache.sharenumbers with
  | none => (.error .assertionFailed, st)
  | some sns =>
    match collectShares st.cache.shares sns with
    | none => (.error .assertionFailed, st)
    | some recomb =>
      let st := { st with data :=
        { st.data with shamirsecretobj := some (emptyShamir cfg.threshold) } }
      match recoverSecretdata cfg.threshold recomb with
      | .error e => (.error (.shamirFailed e), st)
      | .ok (S, sec) =>
        let st := { st with data :=
          { st.data with shamirsecretobj := some S, secret := some sec } }
        if verify_secret cfg sec = false then (.error .recombineFailed, st)
        else
          let st := { st with data :=
            { st.data with thresholdlesskey := some sec, is_unlocked := true } }
          let st := verify_previous_hashes st
          match update_locked_hashes st with
          | (.error e, st) => (.error e, st)
          | (.ok _, st) =>
            (.ok (), updateOp { st with data := { st.data with last_unlocked := st.now } })

/-- `self.encode(password, salt, iterations)`. -/
def encode (cfg : Config) (st : SysState) (pw salt : Bytes) (iterations : Option Nat) :
    Except PPHError Bytes × SysState :=
  let st := if st.data.is_unlocked then st else loadOp st
  let alloc : Nat × Bytes × SysState :=
    if 36 ∈ salt then
      (st.data.nextavailableshare, stripChar 36 salt,
        updateOp { st with data :=
          { st.data with nextavailableshare := st.data.nextavailableshare + 1 } })
    else (0, salt, st)
  let n := alloc.1
  let salt := alloc.2.1
  let st := alloc.2.2
  let iters := iterations.getD cfg.iterations
  let res : Except PPHError Bytes :=
    if st.data.is_unlocked = false ∨ st.data.thresholdlesskey = none then
      .ok (mkEncoded pphAlg (45 :: natToDec n) iters salt
        (b64enc (cfg.digest pw (some salt) iters)))
    else
      (if n = 0 then encrypt_entry cfg st pw salt else polyhash_entry cfg st pw salt n).map
        (fun ph => mkEncoded pphAlg (natToDec n) iters salt ph)
  (res, st)

/-- The locked-path share recovery of `verify` (lines 154–181): recover a
candidate share, check it against the cache, insert it, and recombine once
the set of seen share numbers reaches the threshold. -/
def lockedSharePhase (cfg : Config) (st : SysState) (pw salt stored : Bytes)
    (iters n : Nat) : Except PPHError Unit × SysState :=
  if n ≠ 0 then
    match get_share_from_hash cfg pw salt stored iters with
    | .error e => (.error e, st)
    | .ok share =>
      match List.lookup n st.cache.shares with
      | some value =>
        if constant_time_compare (b64enc value) (b64enc share) then (.ok (), st)
        else (.error .shareConflict, st)
      | none =>
        let st := { st with cache :=
          { st.cache with shares := setAssoc st.cache.shares n share } }
        let sns := addSet (st.cache.sharenumbers.getD []) n
        let st := { st with cache := { st.cache with sharenumbers := some sns } }
        if cfg.threshold ≤ sns.length then recombine cfg st else (.ok (), st)
  else (.ok (), st)

/-- `self.verify(password, encoded)`. -/
def verify (cfg : Config) (st : SysState) (pw encoded : Bytes) :
    Except PPHError Bool × SysState :=
  let st := if st.data.is_unlocked then st else loadOp st
  match splitMax 36 4 encoded with
  | [alg, rawShare, iterB, salt, stored] =>
    if alg ≠ pphAlg then (.error .assertionFailed, st)
    else if rawShare.head? = some 45 then
      match parseNat iterB with
      | none => (.error .parseFailed, st)
      | some iters =>
        (.ok (constant_time_compare (b64enc (cfg.digest pw (some salt) iters)) stored), st)
    else
      match parseNat rawShare, parseNat iterB with
      | some n, some iters =>
        if st.data.secret ≠ none ∧ st.data.thresholdlesskey ≠ none then
          match (if n ≠ 0 then polyhash_entry cfg st pw salt n
                 else encrypt_entry cfg st pw salt) with
          | .error e => (.error e, st)
          | .ok proposed =>
            let pr := partial_verify cfg st pw salt stored iters n
            (.ok (constant_time_compare stored proposed), pr.2)
        else
          match lockedSharePhase cfg st pw salt stored iters n with
          | (.error e, st) => (.error e, st)
          | (.ok _, st) =>
            if 0 < cfg.partialbytes then
              let pr := partial_verify cfg st pw salt stored iters n
              (.ok pr.1, pr.2)
            else (.error .locked, st)
      | _, _ => (.error .parseFailed, st)
  | _ => (.error .parseFailed, st)

/-! ## Basic lemmas about the byte-string utilities -/

theorem constant_time_compare_iff (a b : Bytes) :
    constant_time_compare a b = true ↔ a = b := by
  simp [constant_time_compare]

theorem pyTake_ofNat (xs : Bytes) (i : Nat) : pyTake xs (i : Int) = xs.take i := by
  unfold pyTake pyIdx
  rw [if_neg (by omega)]
  simp

theorem pyTake_sub (xs : Bytes) (k : Nat) (h : k ≤ xs.length) :
    pyTake xs ((xs.length : Int) - k) = xs.take (xs.length - k) := by
  have h0 : ¬ ((xs.length : Int) - k < 0) := by omega
  simp only [pyTake, pyIdx, if_neg h0]
  congr 1
  omega

theorem pyDrop_sub (xs : Bytes) (k : Nat) (h : k ≤ xs.length) :
    pyDrop xs ((xs.length : Int) - k) = xs.drop (xs.length - k) := by
  have h0 : ¬ ((xs.length : Int) - k < 0) := by omega
  simp only [pyDrop, pyIdx, if_neg h0]
  congr 1
  omega

theorem natToDecAux_digits (fuel : Nat) :
    ∀ n, n ≤ fuel → ∀ c ∈ natToDecAux fuel n, 48 ≤ c ∧ c ≤ 57 := by
  induction fuel with
  | zero =>
    intro n hn c hc
    interval_cases n
    simp only [natToDecAux, List.mem_singleton] at hc
    omega
  | succ fuel ih =>
    intro n hn c hc
    rw [natToDecAux] at hc
    split at hc
    · simp only [List.mem_singleton] at hc
      omega
    · rcases List.mem_append.mp hc with h | h
      · exact ih (n / 10) (by omega) c h
      · simp only [List.mem_singleton] at h
        have := Nat.mod_lt n (y := 10) (by omega)
        omega

theorem natToDec_digits (n : Nat) : ∀ c ∈ natToDec n, 48 ≤ c ∧ c ≤ 57 :=
  natToDecAux_digits n n le_rfl

theorem natToDec_ne_nil (n : Nat) : natToDec n ≠ [] := by
  unfold natToDec
  cases n with
  | zero => simp [natToDecAux]
  | succ m =>
    rw [natToDecAux]
    split <;> simp

theorem natToDec_head_ne_45 (n : Nat) : ¬ ((natToDec n).head? = some 45) := by
  intro h
  have hm : 45 ∈ natToDec n := by
    cases hx : natToDec n with
    | nil => rw [hx] at h; simp at h
    | cons a l => rw [hx] at h; simp at h; simp [hx, h]
  have := natToDec_digits n 45 hm
  omega

theorem natToDec_no_sep (n : Nat) : 36 ∉ natToDec n := by
  intro h
  have := natToDec_digits n 36 h
  omega

theorem decVal_natToDecAux (fuel : Nat) :
    ∀ n, n ≤ fuel → (natToDecAux fuel n).foldl (fun a c => a * 10 + (c - 48)) 0 = n := by
  induction fuel with
  | zero =>
    intro n hn
    interval_cases n
    simp [natToDecAux]
  | succ fuel ih =>
    intro n hn
    rw [natToDecAux]
    split
    · simp only [List.foldl_cons, List.foldl_nil]
      omega
    · rw [List.foldl_append, ih (n / 10) (by omega)]
      simp only [List.foldl_cons, List.foldl_nil]
      omega

theorem decVal_natToDec (n : Nat) :
    (natToDec n).foldl (fun a c => a * 10 + (c - 48)) 0 = n :=
  decVal_natToDecAux n n le_rfl

theorem parseNat_natToDec (n : Nat) : parseNat (natToDec n) = some n := by
  have hd := natToDec_digits n
  have hne := natToDec_ne_nil n
  unfold parseNat
  rw [if_neg (by simpa using hne), if_pos, decVal_natToDec]
  rw [List.all_eq_true]
  intro c hc
  have := hd c hc
  simp [isDigit]
  omega

theorem splitFirst_append (sep : Nat) (a rest : Bytes) (ha : sep ∉ a) :
    splitFirst sep (a ++ sep :: rest) = some (a, rest) := by
  induction a with
  | nil => simp [splitFirst]
  | cons c a ih =>
    have hc : c ≠ sep := by intro h; exact ha (by simp [h])
    have ha' : sep ∉ a := by intro h; exact ha (by simp [h])
    simp [splitFirst, hc, ih ha']

theorem splitMax_succ_append (sep k : Nat) (a rest : Bytes) (ha : sep ∉ a) :
    splitMax sep (k + 1) (a ++ sep :: rest) = a :: splitMax sep k rest := by
  simp only [splitMax]
  rw [splitFirst_append sep a rest ha]

theorem splitMax_mkEncoded (alg sh : Bytes) (it : Nat) (salt ph : Bytes)
    (h1 : 36 ∉ alg) (h2 : 36 ∉ sh) (h3 : 36 ∉ salt) :
    splitMax 36 4 (mkEncoded alg sh it salt ph) = [alg, sh, natToDec it, salt, ph] := by
  have e : mkEncoded alg sh it salt ph =
      alg ++ 36 :: (sh ++ 36 :: (natToDec it ++ 36 :: (salt ++ 36 :: ph))) := by
    simp [mkEncoded]
  rw [e, splitMax_succ_append 36 3 alg _ h1, splitMax_succ_append 36 2 sh _ h2,
    splitMax_succ_append 36 1 (natToDec it) _ (natToDec_no_sep it),
    splitMax_succ_append 36 0 salt _ h3]
  rfl

theorem pphAlg_no_sep : 36 ∉ pphAlg := by decide

theorem exceptMap_ok {ε α β : Type} (f : α → β) (x : Except ε α) (b : β) :
    x.map f = .ok b ↔ ∃ a, x = .ok a ∧ f a = b := by
  cases x <;> simp [Except.map]

theorem negField_no_sep (n : Nat) : 36 ∉ 45 :: natToDec n := by
  intro h
  rcases List.mem_cons.mp h with h | h
  · omega
  · exact natToDec_no_sep n h

/-! ## Base64 lemmas -/

theorem b64chr_facts (k : Nat) :
    b64chr k ≤ 127 ∧ b64chr k ≠ 61 ∧ b64chr k ≠ 13 ∧ b64chr k ≠ 10 ∧
      b64chr k ≠ 32 ∧ b64chr k ≠ 36 ∧ b64chr k ≠ 45 := by
  unfold b64chr
  split_ifs <;> omega

theorem b64val_b64chr : ∀ k < 64, b64val (b64chr k) = some k := by decide

theorem mem_b64enc (xs : Bytes) (c : Nat) (hc : c ∈ b64enc xs) :
    c = 61 ∨ ∃ k, c = b64chr k := by
  induction xs using b64enc.induct with
  | case1 a b c' rest ih =>
    rw [b64enc] at hc
    simp only [List.mem_cons] at hc
    rcases hc with h | h | h | h | h
    · exact Or.inr ⟨_, h⟩
    · exact Or.inr ⟨_, h⟩
    · exact Or.inr ⟨_, h⟩
    · exact Or.inr ⟨_, h⟩
    · exact ih h
  | case2 a b =>
    rw [b64enc] at hc
    simp only [List.mem_cons, List.not_mem_nil, or_false] at hc
    rcases hc with h | h | h | h
    · exact Or.inr ⟨_, h⟩
    · exact Or.inr ⟨_, h⟩
    · exact Or.inr ⟨_, h⟩
    · exact Or.inl h
  | case3 a =>
    rw [b64enc] at hc
    simp only [List.mem_cons, List.not_mem_nil, or_false] at hc
    rcases hc with h | h | h | h
    · exact Or.inr ⟨_, h⟩
    · exact Or.inr ⟨_, h⟩
    · exact Or.inl h
    · exact Or.inl h
  | case4 => simp [b64enc] at hc

theorem b64enc_no_sep (xs : Bytes) : 36 ∉ b64enc xs := by
  intro h
  rcases mem_b64enc xs 36 h with h | ⟨k, hk⟩
  · omega
  · exact (b64chr_facts k).2.2.2.2.2.1 hk.symm

theorem a2bAux_data (quad leftchar leftbits : Nat) (k : Nat) (hk : k < 64) (ys : Bytes) :
    a2bAux quad leftchar leftbits (b64chr k :: ys) =
      if 8 ≤ leftbits + 6 then
        (a2bAux ((quad + 1) % 4) ((leftchar * 64 + k) % 2 ^ (leftbits - 2)) (leftbits - 2) ys).map
          (fun bs => (leftchar * 64 + k) / 2 ^ (leftbits - 2) % 256 :: bs)
      else a2bAux ((quad + 1) % 4) (leftchar * 64 + k) (leftbits + 6) ys := by
  obtain ⟨f1, f2, f3, f4, f5, -, -⟩ := b64chr_facts k
  rw [a2bAux]
  rw [if_neg (by push_neg; exact ⟨by omega, f3, f4, f5⟩), if_neg f2, b64val_b64chr k hk]
  have e : leftbits + 6 - 8 = leftbits - 2 := by omega
  simp only [e]

theorem a2b_chunk3 (a b c : Nat) (ha : a < 256) (hb : b < 256) (hc : c < 256) (ys : Bytes) :
    a2bAux 0 0 0 (b64chr (a / 4) :: b64chr ((a % 4) * 16 + b / 16) ::
        b64chr ((b % 16) * 4 + c / 64) :: b64chr (c % 64) :: ys) =
      (a2bAux 0 0 0 ys).map (fun bs => a :: b :: c :: bs) := by
  rw [a2bAux_data 0 0 0 (a / 4) (by omega) _, if_neg (by omega)]
  rw [a2bAux_data 1 (0 * 64 + a / 4) 6 ((a % 4) * 16 + b / 16) (by omega) _,
    if_pos (by omega)]
  rw [a2bAux_data 2 _ (6 - 2) ((b % 16) * 4 + c / 64) (by omega) _, if_pos (by omega)]
  rw [a2bAux_data 3 _ (6 - 2 - 2) (c % 64) (by omega) _, if_pos (by omega)]
  have e1 : (0 * 64 + a / 4) * 64 + ((a % 4) * 16 + b / 16) = a * 16 + b / 16 := by omega
  have e2 : (a * 16 + b / 16) / 2 ^ (6 - 2) % 256 = a := by
    show (a * 16 + b / 16) / 16 % 256 = a
    omega
  have e3 : (a * 16 + b / 16) % 2 ^ (6 - 2) = b / 16 := by
    show (a * 16 + b / 16) % 16 = b / 16
    omega
  have e4 : b / 16 * 64 + ((b % 16) * 4 + c / 64) = b * 4 + c / 64 := by omega
  have e5 : (b * 4 + c / 64) / 2 ^ (6 - 2 - 2) % 256 = b := by
    show (b * 4 + c / 64) / 4 % 256 = b
    omega
  have e6 : (b * 4 + c / 64) % 2 ^ (6 - 2 - 2) = c / 64 := by
    show (b * 4 + c / 64) % 4 = c / 64
    omega
  have e7 : c / 64 * 64 + c % 64 = c := by omega
  have e8 : c / 2 ^ (6 - 2 - 2 - 2) % 256 = c := by
    show c / 1 % 256 = c
    omega
  have e9 : c % 2 ^ (6 - 2 - 2 - 2) = 0 := by
    show c % 1 = 0
    omega
  rw [e1, e2, e3, e4, e5, e6, e7, e8, e9]
  norm_num [Option.map_map]
  rfl

theorem a2b_chunk2 (a b : Nat) (ha : a < 256) (hb : b < 256) (ys : Bytes) :
    a2bAux 0 0 0 (b64chr (a / 4) :: b64chr ((a % 4) * 16 + b / 16) ::
        b64chr ((b % 16) * 4) :: 61 :: ys) = some [a, b] := by
  rw [a2bAux_data 0 0 0 (a / 4) (by omega) _, if_neg (by omega)]
  rw [a2bAux_data 1 (0 * 64 + a / 4) 6 ((a % 4) * 16 + b / 16) (by omega) _,
    if_pos (by omega)]
  rw [a2bAux_data 2 _ (6 - 2) ((b % 16) * 4) (by omega) _, if_pos (by omega)]
  have e1 : (0 * 64 + a / 4) * 64 + ((a % 4) * 16 + b / 16) = a * 16 + b / 16 := by omega
  have e2 : (a * 16 + b / 16) / 2 ^ (6 - 2) % 256 = a := by
    show (a * 16 + b / 16) / 16 % 256 = a
    omega
  have e3 : (a * 16 + b / 16) % 2 ^ (6 - 2) = b / 16 := by
    show (a * 16 + b / 16) % 16 = b / 16
    omega
  have e4 : b / 16 * 64 + (b % 16) * 4 = b * 4 := by omega
  have e5 : b * 4 / 2 ^ (6 - 2 - 2) % 256 = b := by
    show b * 4 / 4 % 256 = b
    omega
  rw [e1, e2, e3, e4, e5]
  rw [a2bAux]
  rw [if_neg (by norm_num), if_pos rfl, if_neg (by norm_num)]
  rfl

theorem a2b_chunk1 (a : Nat) (ha : a < 256) (ys : Bytes) :
    a2bAux 0 0 0 (b64chr (a / 4) :: b64chr ((a % 4) * 16) :: 61 :: 61 :: ys) =
      some [a] := by
  rw [a2bAux_data 0 0 0 (a / 4) (by omega) _, if_neg (by omega)]
  rw [a2bAux_data 1 (0 * 64 + a / 4) 6 ((a % 4) * 16) (by omega) _, if_pos (by omega)]
  have e1 : (0 * 64 + a / 4) * 64 + (a % 4) * 16 = a * 16 := by omega
  have e2 : a * 16 / 2 ^ (6 - 2) % 256 = a := by
    show a * 16 / 16 % 256 = a
    omega
  have e3 : a * 16 % 2 ^ (6 - 2) = 0 := by
    show a * 16 % 16 = 0
    omega
  rw [e1, e2, e3]
  rw [a2bAux]
  rw [if_neg (by norm_num), if_pos rfl]
  rw [if_neg]
  · rfl
  · have hf : findValid (61 :: ys) = some 61 := by
      unfold findValid
      rw [if_pos (by norm_num)]
    simp [hf]

theorem pyB64decode_enc (xs : Bytes) (hx : isBytes xs) :
    pyB64decode (b64enc xs) = some xs := by
  unfold pyB64decode
  induction xs using b64enc.induct with
  | case1 a b c rest ih =>
    have ha : a < 256 := hx a (by simp)
    have hb : b < 256 := hx b (by simp)
    have hc : c < 256 := hx c (by simp)
    have hrest : isBytes rest := fun x hxm => hx x (by simp [hxm])
    rw [b64enc]
    rw [a2b_chunk3 a b c ha hb hc _, ih hrest]
    rfl
  | case2 a b =>
    have ha : a < 256 := hx a (by simp)
    have hb : b < 256 := hx b (by simp)
    rw [b64enc]
    exact a2b_chunk2 a b ha hb []
  | case3 a =>
    have ha : a < 256 := hx a (by simp)
    rw [b64enc]
    exact a2b_chunk1 a ha []
  | case4 => rfl

theorem pyB64decode_enc_append (xs ys : Bytes) (hx : isBytes xs)
    (h3 : xs.length % 3 ≠ 0) : pyB64decode (b64enc xs ++ ys) = some xs := by
  unfold pyB64decode
  induction xs using b64enc.induct with
  | case1 a b c rest ih =>
    have ha : a < 256 := hx a (by simp)
    have hb : b < 256 := hx b (by simp)
    have hc : c < 256 := hx c (by simp)
    have hrest : isBytes rest := fun x hxm => hx x (by simp [hxm])
    have hr3 : rest.length % 3 ≠ 0 := by
      simp only [List.length_cons] at h3
      omega
    rw [b64enc]
    simp only [List.cons_append]
    rw [a2b_chunk3 a b c ha hb hc _, ih hrest hr3]
    rfl
  | case2 a b =>
    have ha : a < 256 := hx a (by simp)
    have hb : b < 256 := hx b (by simp)
    rw [b64enc]
    simp only [List.cons_append, List.nil_append]
    exact a2b_chunk2 a b ha hb ys
  | case3 a =>
    have ha : a < 256 := hx a (by simp)
    rw [b64enc]
    simp only [List.cons_append, List.nil_append]
    exact a2b_chunk1 a ha ys
  | case4 => simp at h3

theorem b64enc_inj (u v : Bytes) (hu : isBytes u) (hv : isBytes v)
    (h : b64enc u = b64enc v) : u = v := by
  have h1 := pyB64decode_enc u hu
  rw [h, pyB64decode_enc v hv] at h1
  exact (Option.some_injective _ h1).symm

/-! ## XOR lemmas -/

theorem do_bytearray_xor_length (a b : Bytes) :
    (do_bytearray_xor a b).length = min a.length b.length := by
  simp [do_bytearray_xor]

theorem isBytes_do_bytearray_xor (a b : Bytes) (ha : isBytes a) (hb : isBytes b) :
    isBytes (do_bytearray_xor a b) := by
  induction a generalizing b with
  | nil => intro x hx; simp [do_bytearray_xor] at hx
  | cons x a ih =>
    cases b with
    | nil => intro y hy; simp [do_bytearray_xor] at hy
    | cons y b =>
      intro z hz
      simp only [do_bytearray_xor, List.zipWith_cons_cons, List.mem_cons] at hz
      rcases hz with h | h
      · subst h
        have hx : x < 2 ^ 8 := ha x (by simp)
        have hy : y < 2 ^ 8 := hb y (by simp)
        exact Nat.xor_lt_two_pow hx hy
      · have := ih b (fun w hw => ha w (by simp [hw])) (fun w hw => hb w (by simp [hw])) z
        simp only [do_bytearray_xor] at this
        exact this h

theorem do_bytearray_xor_cancel (a b : Bytes) (h : a.length = b.length) :
    do_bytearray_xor (do_bytearray_xor a b) a = b := by
  induction a generalizing b with
  | nil =>
    cases b with
    | nil => rfl
    | cons y b => simp at h
  | cons x a ih =>
    cases b with
    | nil => simp at h
    | cons y b =>
      simp only [List.length_cons] at h
      simp only [do_bytearray_xor, List.zipWith_cons_cons]
      have hxy : (x ^^^ y) ^^^ x = y := by
        rw [Nat.xor_comm x y, Nat.xor_assoc, Nat.xor_self, Nat.xor_zero]
      rw [hxy]
      have := ih b (by omega)
      simp only [do_bytearray_xor] at this
      rw [this]

theorem b64enc_length (xs : Bytes) : (b64enc xs).length = (xs.length + 2) / 3 * 4 := by
  induction xs using b64enc.induct with
  | case1 a b c rest ih =>
    rw [b64enc]
    simp only [List.length_cons, ih]
    omega
  | case2 a b => simp [b64enc]
  | case3 a => simp [b64enc]
  | case4 => simp [b64enc]

/-- The share-recovery algebra behind claim C4: slicing the trailing
`partialbytes` characters off a `_polyhash_entry` string, base64-decoding
and XORing with the salted hash yields exactly the Shamir share bytes. -/
theorem get_share_from_hash_polyhash (cfg : Config) (S : ShamirSecret)
    (pw salt : Bytes) (n : Nat)
    (hh : (cfg.digest pw (some salt) cfg.iterations).length =
      (computeShare S n).2.length)
    (hhb : isBytes (cfg.digest pw (some salt) cfg.iterations))
    (h3 : (computeShare S n).2.length % 3 = 2)
    (hyb : isBytes (computeShare S n).2)
    (hP : cfg.partialbytes ≤ (computeShare S n).2.length) :
    get_share_from_hash cfg pw salt (polyhashPure cfg S pw salt n) cfg.iterations =
      .ok (computeShare S n).2 := by
  set h := cfg.digest pw (some salt) cfg.iterations with hdef
  set y := (computeShare S n).2 with ydef
  set P := cfg.partialbytes with Pdef
  set L := y.length with Ldef
  have hphlen : (do_bytearray_xor h y).length = L := by
    rw [do_bytearray_xor_length, hh]
    omega
  have hphb : isBytes (do_bytearray_xor h y) := isBytes_do_bytearray_xor h y hhb hyb
  have htail : pyDrop h ((h.length : Int) - P) = h.drop (L - P) := by
    rw [pyDrop_sub h P (by omega), hh]
  have htaillen : (h.drop (L - P)).length = P := by
    simp [hh]
    omega
  have hstored : polyhashPure cfg S pw salt n =
      b64enc (do_bytearray_xor h y) ++ b64enc (h.drop (L - P)) := by
    rw [polyhashPure, bin64enc]
    rw [← hdef, ← ydef, ← Pdef, htail]
  have hAlen : (b64enc (do_bytearray_xor h y)).length = (L + 2) / 3 * 4 := by
    rw [b64enc_length, hphlen]
  have hBlen : (b64enc (h.drop (L - P))).length = (P + 2) / 3 * 4 := by
    rw [b64enc_length, htaillen]
  have hslice :
      pyTake (polyhashPure cfg S pw salt n)
          (((polyhashPure cfg S pw salt n).length : Int) - P) =
        b64enc (do_bytearray_xor h y) ++
          ((b64enc (h.drop (L - P))).take ((P + 2) / 3 * 4 - P)) := by
    rw [pyTake_sub _ P (by rw [hstored]; simp [hAlen, hBlen]; omega)]
    rw [hstored]
    have e : (b64enc (do_bytearray_xor h y) ++ b64enc (h.drop (L - P))).length - P =
        (b64enc (do_bytearray_xor h y)).length + ((P + 2) / 3 * 4 - P) := by
      simp [hAlen, hBlen]
      omega
    rw [e, List.take_append]
  unfold get_share_from_hash
  rw [hslice, pyB64decode_enc_append _ _ hphb (by rw [hphlen]; omega)]
  show Except.ok (do_bytearray_xor (do_bytearray_xor h y) h) = _
  rw [do_bytearray_xor_cancel h y (by rw [hh])]

/-! ## Association-list and set helpers for the unlock scenario -/

theorem lookup_eq_none_of_not_mem {β : Type} (l : List (Nat × β)) (k : Nat)
    (h : k ∉ l.map Prod.fst) : List.lookup k l = none := by
  induction l with
  | nil => rfl
  | cons p l ih =>
    rw [List.lookup]
    have hk : ¬ (k == p.1) = true := by
      simp only [beq_iff_eq]
      intro he
      exact h (by simp [he])
    simp only [hk, if_false, Bool.false_eq_true, reduceIte]
    exact ih (fun hm => h (by simp at hm ⊢; right; exact hm))

theorem lookup_of_mem_nodup {β : Type} (l : List (Nat × β)) (p : Nat × β)
    (hmem : p ∈ l) (hnd : (l.map Prod.fst).Nodup) : List.lookup p.1 l = some p.2 := by
  induction l with
  | nil => simp at hmem
  | cons q l ih =>
    rw [List.map_cons, List.nodup_cons] at hnd
    rcases List.mem_cons.mp hmem with h | h
    · subst h
      simp [List.lookup]
    · have hne : ¬ (p.1 == q.1) = true := by
        simp only [beq_iff_eq]
        intro he
        exact hnd.1 (he ▸ List.mem_map_of_mem Prod.fst h)
      rw [List.lookup]
      simp only [hne, if_false, Bool.false_eq_true, reduceIte]
      exact ih h hnd.2

theorem collectShares_map {l : List (Nat × Bytes)} (M : List (Nat × Bytes))
    (h : ∀ p ∈ M, List.lookup p.1 l = some p.2) :
    collectShares l (M.map Prod.fst) = some M := by
  induction M with
  | nil => rfl
  | cons p M ih =>
    rw [List.map_cons, collectShares, h p (by simp)]
    rw [ih (fun q hq => h q (by simp [hq]))]
    rfl

theorem setAssoc_of_lookup_none {β : Type} (l : List (Nat × β)) (k : Nat) (v : β)
    (h : List.lookup k l = none) : setAssoc l k v = l ++ [(k, v)] := by
  unfold setAssoc
  rw [h]
  rfl

theorem addSet_of_not_mem (l : List Nat) (n : Nat) (h : n ∉ l) :
    addSet l n = l ++ [n] := by
  unfold addSet
  rw [if_neg h]

theorem nodup_get_not_mem_take {α : Type} (l : List α) (hnd : l.Nodup) (i : Nat)
    (h : i < l.length) : l.get ⟨i, h⟩ ∉ l.take i := by
  intro hmem
  have h1 : l.get ⟨i, h⟩ ∈ l.drop i := by
    rw [List.drop_eq_getElem_cons h]
    exact List.mem_cons_self _ _
  have h2 : (l.take i).Disjoint (l.drop i) := by
    have := hnd
    rw [← List.take_append_drop i l] at this
    exact List.disjoint_of_nodup_append this
  exact h2 hmem h1

/-- Reduction of `verify` on a locked engine and a well-formed non-negative
entry to the share phase followed by the partial/locked tail. -/
theorem verify_locked_eq (cfg : Config) (st : SysState) (pw salt stored : Bytes)
    (it n : Nat) (hs : 36 ∉ salt)
    (hlock :
      (if st.data.is_unlocked then st else loadOp st).data.secret = none ∨
      (if st.data.is_unlocked then st else loadOp st).data.thresholdlesskey = none) :
    verify cfg st pw (mkEncoded pphAlg (natToDec n) it salt stored) =
      (match lockedSharePhase cfg (if st.data.is_unlocked then st else loadOp st)
          pw salt stored it n with
       | (.error e, st2) => (.error e, st2)
       | (.ok _, st2) =>
         if 0 < cfg.partialbytes then
           (.ok (partial_verify cfg st2 pw salt stored it n).1,
             (partial_verify cfg st2 pw salt stored it n).2)
         else (.error .locked, st2)) := by
  have hcond :
      ¬ ((if st.data.is_unlocked then st else loadOp st).data.secret ≠ none ∧
        (if st.data.is_unlocked then st else loadOp st).data.thresholdlesskey ≠ none) := by
    rcases hlock with h | h <;> simp [h]
  unfold verify
  rw [splitMax_mkEncoded _ _ _ _ _ pphAlg_no_sep (natToDec_no_sep n) hs]
  simp only [natToDec_head_ne_45 n, parseNat_natToDec, ne_eq, not_true_eq_false,
    if_false, reduceIte, hcond]

/-! ## The unlock scenario (claim C1) -/

/-- A locked engine state: default data, no persisted blob, the given
candidate-share / share-number / partial caches, no ambient users. -/
def scenarioSt (shares : List (Nat × Bytes)) (snsO : Option (List Nat))
    (ph : Option (List (Bytes × (Nat × Bytes)))) (now : Nat) : SysState :=
  ⟨defaultsData, ⟨none, shares, snsO, ph⟩, [], now⟩

/-- The stored entry of a threshold account `(n, password, salt)`, as
`encode` produces it while unlocked. -/
def acctEnc (cfg : Config) (S : ShamirSecret) (a : Nat × Bytes × Bytes) : Bytes :=
  mkEncoded pphAlg (natToDec a.1) cfg.iterations a.2.2
    (polyhashPure cfg S a.2.1 a.2.2 a.1)

/-- Well-formedness of a threshold account in the unlock scenario: positive
share number, `'$'`-free salt, digest and share of matching byte lengths
(with the padding shape `≡ 2 mod 3` of a 32-byte hash), and enough room
for the partial bytes. -/
def GoodAcct (cfg : Config) (S : ShamirSecret) (a : Nat × Bytes × Bytes) : Prop :=
  0 < a.1 ∧ 36 ∉ a.2.2 ∧
  (cfg.digest a.2.1 (some a.2.2) cfg.iterations).length = (computeShare S a.1).2.length ∧
  (computeShare S a.1).2.length % 3 = 2 ∧
  isBytes (cfg.digest a.2.1 (some a.2.2) cfg.iterations) ∧
  isBytes (computeShare S a.1).2 ∧
  cfg.partialbytes ≤ (computeShare S a.1).2.length

instance (cfg : Config) (S : ShamirSecret) (a : Nat × Bytes × Bytes) :
    Decidable (GoodAcct cfg S a) := by
  unfold GoodAcct
  infer_instance

/-- Run a sequence of verifications, threading the engine state (state
mutated before an exception persists, exactly as the process-wide `data`
and the KV cache do). -/
def runVerifies (cfg : Config) (S : ShamirSecret) (accts : List (Nat × Bytes × Bytes))
    (st : SysState) : SysState :=
  accts.foldl (fun s a => (verify cfg s a.2.1 (acctEnc cfg S a)).2) st

theorem phase_scenario (cfg : Config) (S : ShamirSecret) (a : Nat × Bytes × Bytes)
    (shares : List (Nat × Bytes)) (snsO : Option (List Nat))
    (ph : Option (List (Bytes × (Nat × Bytes)))) (now : Nat)
    (hg : GoodAcct cfg S a) (hnotin : List.lookup a.1 shares = none) :
    lockedSharePhase cfg (scenarioSt shares snsO ph now) a.2.1 a.2.2
        (polyhashPure cfg S a.2.1 a.2.2 a.1) cfg.iterations a.1 =
      (if cfg.threshold ≤ (addSet (snsO.getD []) a.1).length then
        recombine cfg (scenarioSt (shares ++ [(a.1, (computeShare S a.1).2)])
          (some (addSet (snsO.getD []) a.1)) ph now)
      else (.ok (), scenarioSt (shares ++ [(a.1, (computeShare S a.1).2)])
          (some (addSet (snsO.getD []) a.1)) ph now)) := by
  obtain ⟨hn, hs, heq, h3, hhb, hyb, hP⟩ := hg
  have hshare := get_share_from_hash_polyhash cfg S a.2.1 a.2.2 a.1 heq hhb h3 hyb hP
  unfold lockedSharePhase
  rw [if_pos (by omega : a.1 ≠ 0), hshare]
  simp only [scenarioSt]
  rw [hnotin]
  simp only [setAssoc_of_lookup_none shares a.1 _ hnotin]

theorem recombine_scenario (cfg : Config) (shares : List (Nat × Bytes))
    (snsL : List Nat) (ph : Option (List (Bytes × (Nat × Bytes)))) (now : Nat)
    (recomb : List (Nat × Bytes)) (S' : ShamirSecret) (sec : Bytes)
    (hcol : collectShares shares snsL = some recomb)
    (hrec : recoverSecretdata cfg.threshold recomb = .ok (S', sec))
    (hfp : verify_secret cfg sec = true) :
    recombine cfg (scenarioSt shares (some snsL) ph now) =
      (.ok (), ⟨⟨true, some sec, 1, some S', some sec, now⟩,
        ⟨some ⟨true, some sec, 1, some S', some sec, now⟩, shares, some snsL, ph⟩,
        [], now⟩) := by
  unfold recombine
  simp only [scenarioSt]
  rw [hcol]
  dsimp only
  rw [hrec]
  dsimp only
  rw [hfp]
  simp only [Bool.true_eq_false, if_false, reduceIte]
  unfold verify_previous_hashes update_locked_hashes updateOp
  simp only [defaultsData]
  simp

theorem lookup_append_self {β : Type} (l : List (Bytes × β)) (k : Bytes) (v : β) :
    (List.lookup k (l ++ [(k, v)])).isSome := by
  induction l with
  | nil => simp [List.lookup]
  | cons p l ih =>
    rw [List.cons_append, List.lookup]
    split
    · simp
    · exact ih

/-- `_partial_verify` touches nothing in the system state except the
`partial_hashes` cache entry. -/
theorem partial_verify_state (cfg : Config) (st : SysState) (pw salt ph : Bytes)
    (it n : Nat) :
    ∃ q, (partial_verify cfg st pw salt ph it n).2 =
      { st with cache := { st.cache with partial_hashes := q } } := by
  unfold partial_verify
  dsimp only
  split
  · exact ⟨_, rfl⟩
  · exact ⟨st.cache.partial_hashes, rfl⟩

theorem take_succ_eq {α : Type} (l : List α) (k : Nat) (h : k < l.length) :
    l.take (k + 1) = l.take k ++ [l.get ⟨k, h⟩] := by
  rw [← List.take_concat_get l k h, List.concat_eq_append]
  rfl

/-- One below-threshold verification: the candidate share and its number
are cached, nothing else changes (except possibly `partial_hashes`). -/
theorem verify_scenario_step_below (cfg : Config) (S : ShamirSecret)
    (a : Nat × Bytes × Bytes) (shares : List (Nat × Bytes)) (snsO : Option (List Nat))
    (ph : Option (List (Bytes × (Nat × Bytes)))) (now : Nat)
    (hg : GoodAcct cfg S a) (hnotin : List.lookup a.1 shares = none)
    (hlt : (addSet (snsO.getD []) a.1).length < cfg.threshold) :
    ∃ ph', (verify cfg (scenarioSt shares snsO ph now) a.2.1 (acctEnc cfg S a)).2 =
      scenarioSt (shares ++ [(a.1, (computeShare S a.1).2)])
        (some (addSet (snsO.getD []) a.1)) ph' now := by
  have heff : (if (scenarioSt shares snsO ph now).data.is_unlocked then
      scenarioSt shares snsO ph now else loadOp (scenarioSt shares snsO ph now)) =
      scenarioSt shares snsO ph now := rfl
  unfold acctEnc
  rw [verify_locked_eq cfg (scenarioSt shares snsO ph now) a.2.1 a.2.2
    (polyhashPure cfg S a.2.1 a.2.2 a.1) cfg.iterations a.1 hg.2.1 (Or.inl rfl)]
  rw [heff, phase_scenario cfg S a shares snsO ph now hg hnotin, if_neg (by omega)]
  dsimp only
  by_cases hPb : 0 < cfg.partialbytes
  · rw [if_pos hPb]
    obtain ⟨q, hq⟩ := partial_verify_state cfg
      (scenarioSt (shares ++ [(a.1, (computeShare S a.1).2)])
        (some (addSet (snsO.getD []) a.1)) ph now) a.2.1 a.2.2
      (polyhashPure cfg S a.2.1 a.2.2 a.1) cfg.iterations a.1
    exact ⟨q, by rw [hq]; rfl⟩
  · rw [if_neg hPb]
    exact ⟨ph, rfl⟩

/-- The threshold-crossing verification: the share phase invokes
`_recombine`, which succeeds and leaves the engine unlocked. -/
theorem verify_scenario_step_cross (cfg : Config) (S : ShamirSecret)
    (a : Nat × Bytes × Bytes) (shares : List (Nat × Bytes)) (snsO : Option (List Nat))
    (ph : Option (List (Bytes × (Nat × Bytes)))) (now : Nat)
    (hg : GoodAcct cfg S a) (hnotin : List.lookup a.1 shares = none)
    (hge : cfg.threshold ≤ (addSet (snsO.getD []) a.1).length)
    (recomb : List (Nat × Bytes)) (S' : ShamirSecret) (sec : Bytes)
    (hcol : collectShares (shares ++ [(a.1, (computeShare S a.1).2)])
        (addSet (snsO.getD []) a.1) = some recomb)
    (hrec : recoverSecretdata cfg.threshold recomb = .ok (S', sec))
    (hfp : verify_secret cfg sec = true) :
    ((verify cfg (scenarioSt shares snsO ph now) a.2.1 (acctEnc cfg S a)).2).data.is_unlocked
      = true := by
  have heff : (if (scenarioSt shares snsO ph now).data.is_unlocked then
      scenarioSt shares snsO ph now else loadOp (scenarioSt shares snsO ph now)) =
      scenarioSt shares snsO ph now := rfl
  unfold acctEnc
  rw [verify_locked_eq cfg (scenarioSt shares snsO ph now) a.2.1 a.2.2
    (polyhashPure cfg S a.2.1 a.2.2 a.1) cfg.iterations a.1 hg.2.1 (Or.inl rfl)]
  rw [heff, phase_scenario cfg S a shares snsO ph now hg hnotin, if_pos hge,
    recombine_scenario cfg _ _ ph now recomb S' sec hcol hrec hfp]
  dsimp only
  by_cases hPb : 0 < cfg.partialbytes
  · rw [if_pos hPb]
    obtain ⟨q, hq⟩ := partial_verify_state cfg
      (⟨⟨true, some sec, 1, some S', some sec, now⟩,
        ⟨some ⟨true, some sec, 1, some S', some sec, now⟩, shares ++
          [(a.1, (computeShare S a.1).2)], some (addSet (snsO.getD []) a.1), ph⟩,
        [], now⟩ : SysState) a.2.1 a.2.2
      (polyhashPure cfg S a.2.1 a.2.2 a.1) cfg.iterations a.1
    dsimp only
    rw [hq]
  · rw [if_neg hPb]

/-- Candidate-share cache contents after `k` successful verifications. -/
def sharesOf (S : ShamirSecret) (accts : List (Nat × Bytes × Bytes)) (k : Nat) :
    List (Nat × Bytes) :=
  (accts.take k).map (fun a => (a.1, (computeShare S a.1).2))

/-- Seen share numbers after `k` successful verifications. -/
def snsOf (accts : List (Nat × Bytes × Bytes)) (k : Nat) : Option (List Nat) :=
  if k = 0 then none else some ((accts.take k).map Prod.fst)

theorem snsOf_getD (accts : List (Nat × Bytes × Bytes)) (k : Nat) :
    (snsOf accts k).getD [] = (accts.take k).map Prod.fst := by
  unfold snsOf
  split
  · rename_i h
    rw [h]
    rfl
  · rfl

/-- The scenario invariant: `k` below-threshold verifications fill exactly
the first `k` candidate shares and share numbers. -/
theorem runVerifies_take_inv (cfg : Config) (S : ShamirSecret)
    (accts : List (Nat × Bytes × Bytes)) (now : Nat)
    (hnd : (accts.map Prod.fst).Nodup)
    (hgood : ∀ a ∈ accts, GoodAcct cfg S a) :
    ∀ k, k ≤ accts.length → k < cfg.threshold →
      ∃ ph, runVerifies cfg S (accts.take k) (scenarioSt [] none none now) =
        scenarioSt (sharesOf S accts k) (snsOf accts k) ph now := by
  intro k
  induction k with
  | zero => exact fun _ _ => ⟨none, rfl⟩
  | succ k ih =>
    intro hk hkt
    obtain ⟨ph, hinv⟩ := ih (by omega) (by omega)
    have hklt : k < accts.length := by omega
    have hnotmem : (accts.get ⟨k, hklt⟩).1 ∉ (accts.take k).map Prod.fst := by
      intro hmem
      rw [List.map_take] at hmem
      have hg2 : (accts.get ⟨k, hklt⟩).1 = (accts.map Prod.fst).get ⟨k, by simpa⟩ := by
        rw [List.get_map]
      rw [hg2] at hmem
      exact nodup_get_not_mem_take (accts.map Prod.fst) hnd k (by simpa) hmem
    have hnotin : List.lookup (accts.get ⟨k, hklt⟩).1 (sharesOf S accts k) = none := by
      apply lookup_eq_none_of_not_mem
      unfold sharesOf
      rw [List.map_map]
      exact hnotmem
    have hlen_t : (addSet ((snsOf accts k).getD []) (accts.get ⟨k, hklt⟩).1).length
        = k + 1 := by
      rw [snsOf_getD, addSet_of_not_mem _ _ hnotmem, List.length_append,
        List.length_map, List.length_take]
      simp
      omega
    obtain ⟨ph', hstep⟩ := verify_scenario_step_below cfg S (accts.get ⟨k, hklt⟩)
      (sharesOf S accts k) (snsOf accts k) ph now
      (hgood _ (List.get_mem accts k hklt)) hnotin (by rw [hlen_t]; exact hkt)
    refine ⟨ph', ?_⟩
    rw [take_succ_eq accts k hklt]
    unfold runVerifies at hinv ⊢
    rw [List.foldl_append, hinv]
    simp only [List.foldl_cons, List.foldl_nil]
    rw [hstep]
    have e1 : sharesOf S accts (k + 1) =
        sharesOf S accts k ++ [((accts.get ⟨k, hklt⟩).1,
          (computeShare S (accts.get ⟨k, hklt⟩).1).2)] := by
      unfold sharesOf
      rw [take_succ_eq accts k hklt, List.map_append]
      rfl
    have e2 : snsOf accts (k + 1) = some (addSet ((snsOf accts k).getD [])
        (accts.get ⟨k, hklt⟩).1) := by
      rw [snsOf_getD, addSet_of_not_mem _ _ hnotmem]
      unfold snsOf
      rw [if_neg (by omega), take_succ_eq accts k hklt, List.map_append]
      rfl
    rw [e1, e2]

/-- `recover_secretdata` always succeeds on exactly `t` distinct shares
(the consistency check over extra shares is vacuous). -/
theorem recoverSecretdata_ok (t : Nat) (shares : List (Nat × Bytes))
    (hnd : (shares.map Prod.fst).Nodup) (hlen : shares.length = t) :
    ∃ S' sec, recoverSecretdata t shares = .ok (S', sec) := by
  unfold recoverSecretdata
  rw [if_neg (not_not_intro hnd), if_neg (by omega)]
  have hdrop : shares.drop t = [] := by
    rw [← hlen]
    exact List.drop_length shares
  rw [hdrop]
  exact ⟨_, _, rfl⟩

/-- C1: from the locked initial state, distinct successful verifications of
threshold accounts (positive, pairwise-distinct share numbers, correct
passwords) leave the engine locked as long as fewer than `threshold` have
been seen, and the `threshold`-th one triggers `_recombine` and unlocks the
engine (provided the recombined secret carries the valid fingerprint the
deployment guarantees). -/
theorem c1_unlock_threshold (cfg : Config) (S : ShamirSecret)
    (accts : List (Nat × Bytes × Bytes)) (now : Nat)
    (hnd : (accts.map Prod.fst).Nodup)
    (hgood : ∀ a ∈ accts, GoodAcct cfg S a) :
    (accts.length < cfg.threshold →
      (runVerifies cfg S accts (scenarioSt [] none none now)).data.is_unlocked = false) ∧
    (accts.length = cfg.threshold → 1 ≤ cfg.threshold →
      (∀ S' sec,
        recoverSecretdata cfg.threshold
          (accts.map (fun a => (a.1, (computeShare S a.1).2))) = .ok (S', sec) →
        verify_secret cfg sec = true) →
      (runVerifies cfg S accts (scenarioSt [] none none now)).data.is_unlocked = true) := by
  constructor
  · intro hlt
    obtain ⟨ph, hinv⟩ :=
      runVerifies_take_inv cfg S accts now hnd hgood accts.length le_rfl hlt
    rw [List.take_length] at hinv
    rw [hinv]
    rfl
  · intro hlen ht hfp
    set t := cfg.threshold with htdef
    have hklt : t - 1 < accts.length := by omega
    have h1 : accts.take t = accts.take (t - 1) ++ [accts.get ⟨t - 1, hklt⟩] := by
      have h := take_succ_eq accts (t - 1) hklt
      rwa [show t - 1 + 1 = t by omega] at h
    have h2 : accts.take t = accts := by
      rw [← hlen]
      exact List.take_length accts
    have hsplit : accts = accts.take (t - 1) ++ [accts.get ⟨t - 1, hklt⟩] :=
      h2.symm.trans h1
    obtain ⟨ph, hinv⟩ :=
      runVerifies_take_inv cfg S accts now hnd hgood (t - 1) (by omega) (by omega)
    conv_lhs => rw [hsplit]
    unfold runVerifies at hinv ⊢
    rw [List.foldl_append, hinv]
    simp only [List.foldl_cons, List.foldl_nil]
    have hnotmem : (accts.get ⟨t - 1, hklt⟩).1 ∉ (accts.take (t - 1)).map Prod.fst := by
      intro hmem
      rw [List.map_take] at hmem
      have hg2 : (accts.get ⟨t - 1, hklt⟩).1 =
          (accts.map Prod.fst).get ⟨t - 1, by simpa⟩ := by
        rw [List.get_map]
      rw [hg2] at hmem
      exact nodup_get_not_mem_take (accts.map Prod.fst) hnd (t - 1) (by simpa) hmem
    have hnotin :
        List.lookup (accts.get ⟨t - 1, hklt⟩).1 (sharesOf S accts (t - 1)) = none := by
      apply lookup_eq_none_of_not_mem
      unfold sharesOf
      rw [List.map_map]
      exact hnotmem
    have hsns : addSet ((snsOf accts (t - 1)).getD []) (accts.get ⟨t - 1, hklt⟩).1 =
        (accts.take (t - 1)).map Prod.fst ++ [(accts.get ⟨t - 1, hklt⟩).1] := by
      rw [snsOf_getD, addSet_of_not_mem _ _ hnotmem]
    have hMfst : (accts.map (fun a => (a.1, (computeShare S a.1).2))).map Prod.fst =
        accts.map Prod.fst := by
      rw [List.map_map]
      rfl
    have hMnd : ((accts.map (fun a => (a.1, (computeShare S a.1).2))).map Prod.fst).Nodup := by
      rw [hMfst]
      exact hnd
    have hMlen : (accts.map (fun a => (a.1, (computeShare S a.1).2))).length = t := by
      rw [List.length_map, hlen]
    obtain ⟨S', sec, hrec⟩ :=
      recoverSecretdata_ok t (accts.map (fun a => (a.1, (computeShare S a.1).2))) hMnd hMlen
    have hfp' := hfp S' sec hrec
    have hshareseq : sharesOf S accts (t - 1) ++
        [((accts.get ⟨t - 1, hklt⟩).1, (computeShare S (accts.get ⟨t - 1, hklt⟩).1).2)] =
        accts.map (fun a => (a.1, (computeShare S a.1).2)) := by
      unfold sharesOf
      conv_rhs => rw [hsplit]
      rw [List.map_append]
      rfl
    have hsnseq : addSet ((snsOf accts (t - 1)).getD []) (accts.get ⟨t - 1, hklt⟩).1 =
        (accts.map (fun a => (a.1, (computeShare S a.1).2))).map Prod.fst := by
      rw [hsns, hMfst]
      conv_rhs => rw [hsplit]
      rw [List.map_append]
      rfl
    have hlen2 : (addSet ((snsOf accts (t - 1)).getD []) (accts.get ⟨t - 1, hklt⟩).1).length
        = t := by
      rw [hsnseq, hMfst, List.length_map, hlen]
    have hcol : collectShares (sharesOf S accts (t - 1) ++
        [((accts.get ⟨t - 1, hklt⟩).1, (computeShare S (accts.get ⟨t - 1, hklt⟩).1).2)])
        (addSet ((snsOf accts (t - 1)).getD []) (accts.get ⟨t - 1, hklt⟩).1) =
        some (accts.map (fun a => (a.1, (computeShare S a.1).2))) := by
      rw [hshareseq, hsnseq]
      apply collectShares_map
      intro p hp
      exact lookup_of_mem_nodup _ p hp hMnd
    exact verify_scenario_step_cross cfg S (accts.get ⟨t - 1, hklt⟩)
      (sharesOf S accts (t - 1)) (snsOf accts (t - 1)) ph now
      (hgood _ (List.get_mem accts (t - 1) hklt)) hnotin (le_of_eq hlen2.symm)
      (accts.map (fun a => (a.1, (computeShare S a.1).2))) S' sec hcol hrec hfp'

/-! ## Witness configurations (concrete instantiations for the claims) -/

/-- A tiny deterministic stand-in for PBKDF2: two bytes, the first
depending on the password. -/
def wDigest (pw : Bytes) (_salt : Option Bytes) (_iters : Nat) : Bytes :=
  [pw.headD 0 % 256, 9]

/-- Small test configuration (2-byte secrets, threshold 2). -/
def cfgW : Config :=
  { threshold := 2, partialbytes := 2, iterations := 5,
    secret_length := 2, secret_verification_bytes := 1,
    digest := wDigest, aes_encrypt := fun _ x => x }

/-- Splitting-mode Shamir instance for the secret `[0, 65]` in `cfgW`
(each byte's polynomial has the linear coefficient 1). -/
def SW : ShamirSecret := ⟨2, [[0, 1], [65, 1]], some [0, 65]⟩

/-- A fresh locked engine: default data, empty cache, no users. -/
def initStateW : SysState :=
  { data := defaultsData, cache := ⟨none, [], none, none⟩, users := [], now := 42 }

/-- Default-sized configuration (32-byte hashes, 256-byte secrets). -/
def cfg256 : Config :=
  { threshold := 3, partialbytes := 2, iterations := 12000,
    secret_length := 256, secret_verification_bytes := 4,
    digest := fun pw _ _ => List.replicate 31 7 ++ [pw.headD 0 % 256],
    aes_encrypt := fun _ x => x }

/-- Splitting-mode Shamir instance with 32 byte-polynomials for `cfg256`. -/
def SW32 : ShamirSecret :=
  ⟨3, (List.range 32).map (fun i => [i, 1, 1]), some (List.range 32)⟩

/-! ## Claim theorems -/

/-- C2: `verify_secret(secret)`, for a buffer of length `SECRET_LENGTH`,
returns true iff its trailing `SECRET_VERIFICATION_BYTES` bytes equal the
first `V` characters of `base64(digest(leading bytes))`; every buffer built
that way verifies, and changing any trailing byte makes it return false. -/
theorem c2_verify_secret_fingerprint (cfg : Config)
    (hLV : cfg.secret_verification_bytes ≤ cfg.secret_length) :
    (∀ s : Bytes, s.length = cfg.secret_length →
      (verify_secret cfg s = true ↔
        s.drop (cfg.secret_length - cfg.secret_verification_bytes) =
          (b64enc (cfg.digest
              (s.take (cfg.secret_length - cfg.secret_verification_bytes)) none 1)).take
            cfg.secret_verification_bytes)) ∧
    (∀ r : Bytes, r.length = cfg.secret_length - cfg.secret_verification_bytes →
      cfg.secret_verification_bytes ≤ (b64enc (cfg.digest r none 1)).length →
      verify_secret cfg
        (r ++ (b64enc (cfg.digest r none 1)).take cfg.secret_verification_bytes) = true) ∧
    (∀ s s' : Bytes, s.length = cfg.secret_length → s'.length = cfg.secret_length →
      s'.take (cfg.secret_length - cfg.secret_verification_bytes) =
        s.take (cfg.secret_length - cfg.secret_verification_bytes) →
      verify_secret cfg s = true → s' ≠ s → verify_secret cfg s' = false) := by
  set L := cfg.secret_length with hL
  set V := cfg.secret_verification_bytes with hV
  have A : ∀ s : Bytes, s.length = L →
      (verify_secret cfg s = true ↔
        s.drop (L - V) = (b64enc (cfg.digest (s.take (L - V)) none 1)).take V) := by
    intro s hs
    unfold verify_secret
    have h1 : ((L : Int) - V) = ((s.length : Int) - V) := by rw [hs]
    rw [← hL, ← hV, h1]
    simp only [pyTake_sub s V (by omega), pyDrop_sub s V (by omega), pyTake_ofNat,
      constant_time_compare_iff]
    rw [hs]
  refine ⟨A, ?_, ?_⟩
  · intro r hr hVlen
    have hfp : ((b64enc (cfg.digest r none 1)).take V).length = V := by
      rw [List.length_take]
      omega
    have hs : (r ++ (b64enc (cfg.digest r none 1)).take V).length = L := by
      rw [List.length_append, hr, hfp]
      omega
    rw [A _ hs]
    have ht : (r ++ (b64enc (cfg.digest r none 1)).take V).take (L - V) = r := by
      rw [← hr, List.take_left]
    have hd : (r ++ (b64enc (cfg.digest r none 1)).take V).drop (L - V) =
        (b64enc (cfg.digest r none 1)).take V := by
      rw [← hr, List.drop_left]
    rw [ht, hd]
  · intro s s' hs hs' hpre hvs hne
    cases h2 : verify_secret cfg s' with
    | false => rfl
    | true =>
      exfalso
      have e1 := (A s' hs').mp h2
      rw [hpre] at e1
      have e2 := (A s hs).mp hvs
      apply hne
      calc s' = s'.take (L - V) ++ s'.drop (L - V) := (List.take_append_drop _ s').symm
        _ = s.take (L - V) ++ s.drop (L - V) := by rw [hpre, e1, ← e2]
        _ = s := List.take_append_drop _ s

set_option maxRecDepth 4000 in
/-- Witness for C2 at the default sizes `SECRET_LENGTH = 256`, `V = 4`. -/
theorem c2_witness :
    verify_secret cfg256
      (List.replicate 252 3 ++ (b64enc (cfg256.digest (List.replicate 252 3) none 1)).take 4) =
      true :=
  (c2_verify_secret_fingerprint cfg256 (by decide)).2.1 (List.replicate 252 3)
    (by decide) (by decide)

/-- C3 counterexample: the salt `"a$b"` neither begins nor ends with `'$'`,
yet `encode` allocates a fresh share number (the persisted
`nextavailableshare` moves from 1 to 2, and the emitted entry carries the
latent share number 1 instead of 0). -/
theorem c3_counterexample :
    ([97, 36, 98] : Bytes).head? ≠ some 36 ∧
    ([97, 36, 98] : Bytes).getLast? ≠ some 36 ∧
    (encode cfgW initStateW [1] [97, 36, 98] none).2.data.nextavailableshare = 2 ∧
    (encode cfgW initStateW [1] [97, 36, 98] none).2.cache.hasher =
      some (encode cfgW initStateW [1] [97, 36, 98] none).2.data ∧
    (encode cfgW initStateW [1] [97, 36, 98] none).1 =
      .ok (mkEncoded pphAlg (45 :: natToDec 1) 5 [97, 36, 98] (b64enc [1, 9])) := by
  decide

/-- C3 (amended): `encode` allocates a fresh share number (incrementing and
persisting `next_share`, stripping `'$'` from both ends of the salt) iff
the salt CONTAINS `'$'` anywhere; salts without `'$'` leave the state
unchanged and produce a thresholdless (share field `0`, possibly with the
locked `-` marker) entry. -/
theorem c3_share_allocation (cfg : Config) (st : SysState) (pw salt : Bytes)
    (iterations : Option Nat)
    (hsalt : 36 ∉ (if 36 ∈ salt then stripChar 36 salt else salt)) :
    ((encode cfg st pw salt iterations).2 =
      (if 36 ∈ salt then
        updateOp { (if st.data.is_unlocked then st else loadOp st) with data :=
          { (if st.data.is_unlocked then st else loadOp st).data with
            nextavailableshare :=
              (if st.data.is_unlocked then st else loadOp st).data.nextavailableshare + 1 } }
      else (if st.data.is_unlocked then st else loadOp st))) ∧
    (∀ out, (encode cfg st pw salt iterations).1 = .ok out →
      (splitMax 36 4 out).getD 1 [] =
          natToDec (if 36 ∈ salt then
            (if st.data.is_unlocked then st else loadOp st).data.nextavailableshare else 0) ∨
      (splitMax 36 4 out).getD 1 [] =
          45 :: natToDec (if 36 ∈ salt then
            (if st.data.is_unlocked then st else loadOp st).data.nextavailableshare else 0)) := by
  by_cases h36 : 36 ∈ salt
  · have hsalt' : 36 ∉ stripChar 36 salt := by simpa [h36] using hsalt
    simp only [encode, h36, if_true]
    refine ⟨trivial, ?_⟩
    intro out hout
    split at hout
    · rename_i hload
      rw [if_pos hload]
      split at hout
      · cases hout
        rw [splitMax_mkEncoded _ _ _ _ _ pphAlg_no_sep (negField_no_sep _) hsalt']
        right
        rfl
      · obtain ⟨ph, -, hf⟩ := (exceptMap_ok _ _ _).mp hout
        subst hf
        rw [splitMax_mkEncoded _ _ _ _ _ pphAlg_no_sep (natToDec_no_sep _) hsalt']
        left
        rfl
    · rename_i hload
      rw [if_neg hload]
      split at hout
      · cases hout
        rw [splitMax_mkEncoded _ _ _ _ _ pphAlg_no_sep (negField_no_sep _) hsalt']
        right
        rfl
      · obtain ⟨ph, -, hf⟩ := (exceptMap_ok _ _ _).mp hout
        subst hf
        rw [splitMax_mkEncoded _ _ _ _ _ pphAlg_no_sep (natToDec_no_sep _) hsalt']
        left
        rfl
  · have hsalt' : 36 ∉ salt := by simpa [h36] using hsalt
    simp only [encode, h36, if_false]
    refine ⟨trivial, ?_⟩
    intro out hout
    split at hout
    · rename_i hload
      split at hout
      · cases hout
        rw [splitMax_mkEncoded _ _ _ _ _ pphAlg_no_sep (negField_no_sep _) hsalt']
        right
        rfl
      · obtain ⟨ph, -, hf⟩ := (exceptMap_ok _ _ _).mp hout
        subst hf
        rw [splitMax_mkEncoded _ _ _ _ _ pphAlg_no_sep (natToDec_no_sep _) hsalt']
        left
        rfl
    · rename_i hload
      split at hout
      · cases hout
        rw [splitMax_mkEncoded _ _ _ _ _ pphAlg_no_sep (negField_no_sep _) hsalt']
        right
        rfl
      · obtain ⟨ph, -, hf⟩ := (exceptMap_ok _ _ _).mp hout
        subst hf
        rw [splitMax_mkEncoded _ _ _ _ _ pphAlg_no_sep (natToDec_no_sep _) hsalt']
        left
        rfl

/-- Witness for C3 (amended): a `$`-wrapped salt allocates share number 1,
visible in the emitted entry's share field. -/
theorem c3_witness :
    (splitMax 36 4 (mkEncoded pphAlg (45 :: natToDec 1) 5 [97] (b64enc [1, 9]))).getD 1 [] =
        natToDec (if 36 ∈ ([36, 97, 36] : Bytes) then
          (if initStateW.data.is_unlocked then initStateW
            else loadOp initStateW).data.nextavailableshare
          else 0) ∨
    (splitMax 36 4 (mkEncoded pphAlg (45 :: natToDec 1) 5 [97] (b64enc [1, 9]))).getD 1 [] =
        45 :: natToDec (if 36 ∈ ([36, 97, 36] : Bytes) then
          (if initStateW.data.is_unlocked then initStateW
            else loadOp initStateW).data.nextavailableshare
          else 0) :=
  (c3_share_allocation cfgW initStateW [1] [36, 97, 36] none (by decide)).2
    (mkEncoded pphAlg (45 :: natToDec 1) 5 [97] (b64enc [1, 9])) (by decide)

/-- C8: for every encoded entry whose share field begins with `-`, `verify`
returns the constant-time comparison of `base64(pbkdf2(password, salt,
iterations))` with the stored hash, whatever the engine state. -/
theorem c8_negative_marker_verify (cfg : Config) (st : SysState)
    (pw rawShare salt stored : Bytes) (it : Nat)
    (hneg : rawShare.head? = some 45) (hr : 36 ∉ rawShare) (hs : 36 ∉ salt) :
    (verify cfg st pw (mkEncoded pphAlg rawShare it salt stored)).1 =
      .ok (constant_time_compare (b64enc (cfg.digest pw (some salt) it)) stored) := by
  unfold verify
  rw [splitMax_mkEncoded _ _ _ _ _ pphAlg_no_sep hr hs]
  simp only [hneg, parseNat_natToDec, ne_eq, not_true_eq_false, if_false, reduceIte]

/-- Witness for C8 on a concrete locked-marker entry and an unlocked-looking
engine state, exercising the state-independence of the locked branch. -/
theorem c8_witness :
    (verify cfgW
      { data := { defaultsData with is_unlocked := true }, cache := ⟨none, [], none, none⟩,
        users := [], now := 0 }
      [7] (mkEncoded pphAlg [45, 48] 5 [97] (b64enc [7, 9]))).1 =
      .ok (constant_time_compare (b64enc (cfgW.digest [7] (some [97]) 5)) (b64enc [7, 9])) :=
  c8_negative_marker_verify cfgW _ [7] [45, 48] [97] (b64enc [7, 9]) 5 (by decide)
    (by decide) (by decide)

/-- C9: whenever the engine data (after the conditional reload) is locked or
has no thresholdless key, `encode` emits a locked-mode string
`pph$-n$iterations$salt$base64(h)` whose share field begins with `-`, for
every password and salt. -/
theorem c9_locked_encode (cfg : Config) (st : SysState) (pw salt : Bytes)
    (iterations : Option Nat)
    (hlock :
      (if st.data.is_unlocked then st else loadOp st).data.is_unlocked = false ∨
      (if st.data.is_unlocked then st else loadOp st).data.thresholdlesskey = none) :
    ∃ n salt',
      (encode cfg st pw salt iterations).1 =
        .ok (mkEncoded pphAlg (45 :: natToDec n) (iterations.getD cfg.iterations) salt'
          (b64enc (cfg.digest pw (some salt') (iterations.getD cfg.iterations)))) ∧
      (45 :: natToDec n).head? = some 45 := by
  unfold encode
  by_cases h36 : 36 ∈ salt
  · simp only [h36, if_true]
    refine ⟨(if st.data.is_unlocked then st else loadOp st).data.nextavailableshare,
      stripChar 36 salt, ?_, rfl⟩
    rw [if_pos]
    simpa using hlock
  · simp only [h36, if_false]
    refine ⟨0, salt, ?_, rfl⟩
    rw [if_pos]
    exact hlock

set_option maxRecDepth 80000 in
/-- Witness for C1 at threshold 2: one correct verification leaves the
engine locked, two unlock it. -/
theorem c1_witness :
    (runVerifies cfgW SW [(1, [1], [97])]
      (scenarioSt [] none none 42)).data.is_unlocked = false ∧
    (runVerifies cfgW SW [(1, [1], [97]), (2, [2], [98])]
      (scenarioSt [] none none 42)).data.is_unlocked = true := by
  constructor
  · exact (c1_unlock_threshold cfgW SW [(1, [1], [97])] 42 (by decide) (by decide)).1
      (by decide)
  · refine (c1_unlock_threshold cfgW SW [(1, [1], [97]), (2, [2], [98])] 42
      (by decide) (by decide)).2 (by decide) (by decide) ?_
    intro S' sec h
    rw [show recoverSecretdata cfgW.threshold
        (([(1, [1], [97]), (2, [2], [98])] : List (Nat × Bytes × Bytes)).map
          (fun a => (a.1, (computeShare SW a.1).2))) =
        Except.ok (⟨2, [[0, 1], [65, 1]], some [0, 65]⟩, [0, 65]) from by decide] at h
    cases h
    decide

/-- Witness for C9: the fresh locked engine encodes with a `-` marker. -/
theorem c9_witness :
    ∃ n salt',
      (encode cfgW initStateW [1] [97] none).1 =
        .ok (mkEncoded pphAlg (45 :: natToDec n) ((none : Option Nat).getD cfgW.iterations)
          salt' (b64enc (cfgW.digest [1] (some salt') ((none : Option Nat).getD cfgW.iterations)))) ∧
      (45 :: natToDec n).head? = some 45 :=
  c9_locked_encode cfgW initStateW [1] [97] none (by decide)

/-- C6: when the engine is locked (secret or thresholdless key absent) and
the entry carries a non-negative share number, `verify` returns the partial
verification result when `partialbytes > 0` and raises `Locked` otherwise;
with partial bytes disabled it never returns a boolean. -/
theorem c6_locked_verify_partial_or_locked (cfg : Config) (st : SysState)
    (pw salt stored : Bytes) (it n : Nat) (hs : 36 ∉ salt)
    (hlock :
      (if st.data.is_unlocked then st else loadOp st).data.secret = none ∨
      (if st.data.is_unlocked then st else loadOp st).data.thresholdlesskey = none) :
    (∀ st', lockedSharePhase cfg (if st.data.is_unlocked then st else loadOp st)
        pw salt stored it n = (.ok (), st') →
      verify cfg st pw (mkEncoded pphAlg (natToDec n) it salt stored) =
        (if 0 < cfg.partialbytes then
          (.ok (partial_verify cfg st' pw salt stored it n).1,
            (partial_verify cfg st' pw salt stored it n).2)
        else (.error .locked, st'))) ∧
    (cfg.partialbytes = 0 →
      ∀ b, (verify cfg st pw (mkEncoded pphAlg (natToDec n) it salt stored)).1 ≠ .ok b) := by
  have hcond :
      ¬ ((if st.data.is_unlocked then st else loadOp st).data.secret ≠ none ∧
        (if st.data.is_unlocked then st else loadOp st).data.thresholdlesskey ≠ none) := by
    rcases hlock with h | h <;> simp [h]
  constructor
  · intro st' hphase
    unfold verify
    rw [splitMax_mkEncoded _ _ _ _ _ pphAlg_no_sep (natToDec_no_sep n) hs]
    simp only [natToDec_head_ne_45 n, parseNat_natToDec, ne_eq, not_true_eq_false,
      if_false, reduceIte, hcond, hphase]
  · intro hP b
    unfold verify
    rw [splitMax_mkEncoded _ _ _ _ _ pphAlg_no_sep (natToDec_no_sep n) hs]
    simp only [natToDec_head_ne_45 n, parseNat_natToDec, ne_eq, not_true_eq_false,
      if_false, reduceIte, hcond, hP]
    rcases hres : lockedSharePhase cfg (if st.data.is_unlocked then st else loadOp st)
        pw salt stored it n with ⟨res, st2⟩
    cases res with
    | error e => simp
    | ok u => simp

/-- Locked configuration (`PARTIALBYTES = 0`) for the C6 witness. -/
def cfgW0 : Config :=
  { cfgW with partialbytes := 0 }

set_option maxRecDepth 2000 in
/-- Witness for C6: with partial bytes disabled, a locked verify of a
threshold entry never returns a boolean (in particular not `true`). -/
theorem c6_witness :
    (verify cfgW0 initStateW [1]
      (mkEncoded pphAlg (natToDec 1) 5 [97] (polyhashPure cfgW0 SW [1] [97] 1))).1 ≠
        .ok true :=
  (c6_locked_verify_partial_or_locked cfgW0 initStateW [1] [97]
    (polyhashPure cfgW0 SW [1] [97] 1) 5 1 (by decide) (by decide)).2 rfl true

/-- C5: during a locked verify of a threshold account whose share number is
already cached, a differing XOR-recovered candidate makes verification fail
with the cached-share-mismatch fatal error without overwriting the cache,
while a byte-identical candidate leaves the cached value and the set of
seen share numbers unchanged. -/
theorem c5_cached_share_conflict (cfg : Config) (st : SysState)
    (pw salt stored v share : Bytes) (it n : Nat)
    (hlock :
      (if st.data.is_unlocked then st else loadOp st).data.secret = none ∨
      (if st.data.is_unlocked then st else loadOp st).data.thresholdlesskey = none)
    (hn : n ≠ 0) (hs : 36 ∉ salt)
    (hcached :
      List.lookup n (if st.data.is_unlocked then st else loadOp st).cache.shares = some v)
    (hshare : get_share_from_hash cfg pw salt stored it = .ok share)
    (hvb : isBytes v) (hsb : isBytes share) :
    (share ≠ v →
      verify cfg st pw (mkEncoded pphAlg (natToDec n) it salt stored) =
        (.error .shareConflict, if st.data.is_unlocked then st else loadOp st)) ∧
    (share = v →
      (verify cfg st pw (mkEncoded pphAlg (natToDec n) it salt stored)).2.cache.shares =
          (if st.data.is_unlocked then st else loadOp st).cache.shares ∧
      (verify cfg st pw (mkEncoded pphAlg (natToDec n) it salt stored)).2.cache.sharenumbers =
          (if st.data.is_unlocked then st else loadOp st).cache.sharenumbers ∧
      List.lookup n (verify cfg st pw (mkEncoded pphAlg (natToDec n) it salt stored)).2.cache.shares
          = some v) := by
  have hcond :
      ¬ ((if st.data.is_unlocked then st else loadOp st).data.secret ≠ none ∧
        (if st.data.is_unlocked then st else loadOp st).data.thresholdlesskey ≠ none) := by
    rcases hlock with h | h <;> simp [h]
  constructor
  · intro hne
    have hb : ¬ (constant_time_compare (b64enc v) (b64enc share) = true) := by
      rw [constant_time_compare_iff]
      intro h
      exact hne (b64enc_inj v share hvb hsb h).symm
    unfold verify
    rw [splitMax_mkEncoded _ _ _ _ _ pphAlg_no_sep (natToDec_no_sep n) hs]
    simp only [natToDec_head_ne_45 n, parseNat_natToDec, ne_eq, not_true_eq_false,
      if_false, reduceIte, hcond]
    unfold lockedSharePhase
    simp only [hn, hshare, hcached, hb, ne_eq, not_false_eq_true, if_true, if_false,
      reduceIte]
    simp
  · intro heq
    subst heq
    have hb : constant_time_compare (b64enc share) (b64enc share) = true := by
      rw [constant_time_compare_iff]
    have hphase : lockedSharePhase cfg (if st.data.is_unlocked then st else loadOp st)
        pw salt stored it n = (.ok (), if st.data.is_unlocked then st else loadOp st) := by
      unfold lockedSharePhase
      simp only [hn, hshare, hcached, hb, ne_eq, not_false_eq_true, if_true, reduceIte]
    have hv := (c6_locked_verify_partial_or_locked cfg st pw salt stored it n hs hlock).1
      _ hphase
    rw [hv]
    by_cases hP : 0 < cfg.partialbytes
    · simp only [hP, if_true]
      obtain ⟨q, hq⟩ := partial_verify_state cfg
        (if st.data.is_unlocked then st else loadOp st) pw salt stored it n
      rw [hq]
      exact ⟨by trivial, by trivial, hcached⟩
    · simp only [hP, if_false, reduceIte]
      exact ⟨by trivial, by trivial, hcached⟩

/-- State with one cached candidate share for the C5 witness. -/
def stateC5 : SysState :=
  { data := defaultsData,
    cache := ⟨none, [(1, (computeShare SW 1).2)], some [1], none⟩,
    users := [], now := 42 }

set_option maxRecDepth 2000 in
/-- Witness for C5: a cached share for share number 1 and a matching
recovered candidate leave the caches untouched. -/
theorem c5_witness :
    ((computeShare SW 1).2 ≠ (computeShare SW 1).2 →
      verify cfgW stateC5 [1] (mkEncoded pphAlg (natToDec 1) 5 [97]
          (polyhashPure cfgW SW [1] [97] 1)) =
        (.error .shareConflict, if stateC5.data.is_unlocked then stateC5 else loadOp stateC5)) ∧
    ((computeShare SW 1).2 = (computeShare SW 1).2 →
      (verify cfgW stateC5 [1] (mkEncoded pphAlg (natToDec 1) 5 [97]
          (polyhashPure cfgW SW [1] [97] 1))).2.cache.shares =
        (if stateC5.data.is_unlocked then stateC5 else loadOp stateC5).cache.shares ∧
      (verify cfgW stateC5 [1] (mkEncoded pphAlg (natToDec 1) 5 [97]
          (polyhashPure cfgW SW [1] [97] 1))).2.cache.sharenumbers =
        (if stateC5.data.is_unlocked then stateC5 else loadOp stateC5).cache.sharenumbers ∧
      List.lookup 1 (verify cfgW stateC5 [1] (mkEncoded pphAlg (natToDec 1) 5 [97]
          (polyhashPure cfgW SW [1] [97] 1))).2.cache.shares = some (computeShare SW 1).2) :=
  c5_cached_share_conflict cfgW stateC5 [1] [97] (polyhashPure cfgW SW [1] [97] 1)
    (computeShare SW 1).2 (computeShare SW 1).2 5 1 (by decide) (by decide) (by decide)
    (by decide) (by decide) (by decide) (by decide)

/-- C7: when Shamir recovery succeeds but the recovered secret fails the
fingerprint check, `_recombine` aborts with the fatal error and the engine
stays locked: `is_unlocked` is still false and the thresholdless key is
still absent afterwards. -/
theorem c7_fingerprint_failure_stays_locked (cfg : Config) (st : SysState)
    (sns : List Nat) (recomb : List (Nat × Bytes)) (S : ShamirSecret) (sec : Bytes)
    (hsn : st.cache.sharenumbers = some sns)
    (hcol : collectShares st.cache.shares sns = some recomb)
    (hrec : recoverSecretdata cfg.threshold recomb = .ok (S, sec))
    (hfp : verify_secret cfg sec = false)
    (hlock : st.data.is_unlocked = false)
    (hkey : st.data.thresholdlesskey = none) :
    recombine cfg st =
      (.error .recombineFailed,
        { st with data := { st.data with shamirsecretobj := some S, secret := some sec } }) ∧
    (recombine cfg st).2.data.is_unlocked = false ∧
    (recombine cfg st).2.data.thresholdlesskey = none := by
  have hmain : recombine cfg st =
      (.error .recombineFailed,
        { st with data := { st.data with shamirsecretobj := some S, secret := some sec } }) := by
    unfold recombine
    rw [hsn]
    simp only [hcol, hrec, hfp, reduceIte]
  refine ⟨hmain, ?_, ?_⟩ <;> rw [hmain] <;> simp [hlock, hkey]

/-- Locked state holding two consistent candidate shares of a secret whose
fingerprint is wrong (`[0, 99]` instead of `[0, 65]`). -/
def stateC7 : SysState :=
  { data := defaultsData,
    cache := ⟨none, [(1, [1, 98]), (2, [2, 97])], some [1, 2], none⟩,
    users := [], now := 42 }

set_option maxRecDepth 40000 in
/-- Witness for C7: recombining `stateC7` raises and leaves it locked. -/
theorem c7_witness :
    recombine cfgW stateC7 =
      (.error .recombineFailed,
        { stateC7 with data := { stateC7.data with
            shamirsecretobj := some ⟨2, [[0, 1], [99, 1]], some [0, 99]⟩,
            secret := some [0, 99] } }) ∧
    (recombine cfgW stateC7).2.data.is_unlocked = false ∧
    (recombine cfgW stateC7).2.data.thresholdlesskey = none :=
  c7_fingerprint_failure_stays_locked cfgW stateC7 [1, 2] [(1, [1, 98]), (2, [2, 97])]
    ⟨2, [[0, 1], [99, 1]], some [0, 99]⟩ [0, 99] rfl (by decide) (by decide) (by decide)
    rfl rfl

/-- C4: for a threshold entry produced by `_polyhash_entry` while unlocked,
`_get_share_from_hash` with the correct password, salt and iterations
returns exactly `shamir.compute_share(n)[1]`. -/
theorem c4_share_recovery (cfg : Config) (st : SysState) (S : ShamirSecret)
    (pw salt stored : Bytes) (n : Nat) (hn : 0 < n)
    (hS : st.data.shamirsecretobj = some S)
    (henc : polyhash_entry cfg st pw salt n = .ok stored)
    (hh : (cfg.digest pw (some salt) cfg.iterations).length = 32)
    (hhb : isBytes (cfg.digest pw (some salt) cfg.iterations))
    (hy : (computeShare S n).2.length = 32)
    (hyb : isBytes (computeShare S n).2)
    (hP : cfg.partialbytes ≤ 32) :
    get_share_from_hash cfg pw salt stored cfg.iterations = .ok (computeShare S n).2 := by
  have hstored : stored = polyhashPure cfg S pw salt n := by
    unfold polyhash_entry at henc
    rw [hS] at henc
    exact (Except.ok.inj henc).symm
  rw [hstored]
  exact get_share_from_hash_polyhash cfg S pw salt n (hh.trans hy.symm) hhb
    (by rw [hy]) hyb (by rw [hy]; exact hP)

/-- Unlocked engine state holding the 32-byte Shamir instance. -/
def stateC4 : SysState :=
  ⟨⟨true, some (List.range 32), 4, some SW32, some (List.range 32), 0⟩,
    ⟨none, [], none, none⟩, [], 0⟩

set_option maxRecDepth 20000 in
/-- Witness for C4 with 32-byte hashes and shares. -/
theorem c4_witness :
    get_share_from_hash cfg256 [5] [97] (polyhashPure cfg256 SW32 [5] [97] 1)
        cfg256.iterations = .ok (computeShare SW32 1).2 :=
  c4_share_recovery cfg256 stateC4 SW32 [5] [97] (polyhashPure cfg256 SW32 [5] [97] 1) 1
    (by decide) rfl rfl (by decide) (by decide) (by decide) (by decide) (by decide)

/-- C10: with `partialbytes = 0`, `_partial_verify` succeeds vacuously for
every password and stored hash (both compared suffixes are empty) and still
records the hash in the `partial_hashes` cache; consequently an unlocked
verify returns the full comparison while the stored hash lands in the
partial cache even when that comparison fails. -/
theorem c10_vacuous_partial_verify (cfg : Config) (hP : cfg.partialbytes = 0) :
    (∀ (st : SysState) (pw salt passhash : Bytes) (it n : Nat),
      (partial_verify cfg st pw salt passhash it n).1 = true ∧
      (List.lookup passhash
        ((partial_verify cfg st pw salt passhash it n).2.cache.partial_hashes.getD [])).isSome) ∧
    (∀ (st : SysState) (pw salt stored key : Bytes) (it : Nat),
      st.data.is_unlocked = true →
      st.data.secret ≠ none →
      st.data.thresholdlesskey = some key →
      36 ∉ salt →
      (verify cfg st pw (mkEncoded pphAlg (natToDec 0) it salt stored)).1 =
        .ok (constant_time_compare stored (encryptPure cfg key pw salt)) ∧
      (List.lookup stored
        ((verify cfg st pw (mkEncoded pphAlg (natToDec 0) it salt stored)).2.cache.partial_hashes.getD [])).isSome) := by
  have h0 : ∀ xs : Bytes, pyDrop xs ((xs.length : Int) - (cfg.partialbytes : Int)) = [] := by
    intro xs
    rw [hP]
    have := pyDrop_sub xs 0 (Nat.zero_le _)
    simp only [Nat.cast_zero] at this ⊢
    rw [this]
    simp
  have base : ∀ (st : SysState) (pw salt passhash : Bytes) (it n : Nat),
      (partial_verify cfg st pw salt passhash it n).1 = true ∧
      (List.lookup passhash
        ((partial_verify cfg st pw salt passhash it n).2.cache.partial_hashes.getD [])).isSome := by
    intro st pw salt passhash it n
    unfold partial_verify
    dsimp only
    have hcc : constant_time_compare ([] : Bytes) ([] : Bytes) = true := rfl
    rw [h0, h0, if_pos hcc]
    refine ⟨rfl, ?_⟩
    by_cases hl : (List.lookup passhash (st.cache.partial_hashes.getD [])).isSome
    · simp only [hl, if_true, Option.getD_some]
    · simp only [hl, if_false, Option.getD_some, Bool.false_eq_true, reduceIte]
      exact lookup_append_self _ passhash _
  refine ⟨base, ?_⟩
  intro st pw salt stored key it hu hsec hkey hs
  have hcond : st.data.secret ≠ none ∧ st.data.thresholdlesskey ≠ none := by
    exact ⟨hsec, by simp [hkey]⟩
  unfold verify
  rw [splitMax_mkEncoded _ _ _ _ _ pphAlg_no_sep (natToDec_no_sep 0) hs]
  simp only [natToDec_head_ne_45 0, parseNat_natToDec, ne_eq, not_true_eq_false,
    if_false, reduceIte, hu, if_true, hcond, and_self]
  unfold encrypt_entry
  rw [hkey]
  simp only []
  exact ⟨rfl, (base st pw salt stored it 0).2⟩

/-- Witness for C10: with partial bytes disabled, `_partial_verify` accepts
a garbage hash and still records it. -/
theorem c10_witness :
    (partial_verify cfgW0 initStateW [1] [97] (b64enc [7, 9]) 5 0).1 = true ∧
    (List.lookup (b64enc [7, 9])
      ((partial_verify cfgW0 initStateW [1] [97]
        (b64enc [7, 9]) 5 0).2.cache.partial_hashes.getD [])).isSome :=
  (c10_vacuous_partial_verify cfgW0 rfl).1 initStateW [1] [97] (b64enc [7, 9]) 5 0

end PPH
